import Mathlib

/-!
vmmc: `MersenneTwister.h` and `InputOutput.cpp`.

A shallow embedding of the random-number wrapper `MersenneTwister`
(src/src/MersenneTwister.h) and of the trajectory / VMD script writer
`InputOutput` (src/demos/src/InputOutput.cpp).

`MersenneTwister` is a thin wrapper: every member function is a single call into
`<random>`.  What such a call does is fixed partly by the C++ standard
(`std::mt19937` is specified bit for bit) and partly by the standard library in
use.  The library code embedded here is GNU libstdc++ (GCC 12, x86-64 Linux):
`bits/random.h`, `bits/random.tcc`, `bits/uniform_int_dist.h`.

Conventions.
* Unsigned machine integers are `Nat` with an explicit `% 2 ^ w`; `int` is `Int`
  in `[-2^31, 2^31)`.
* A `double` is the rational number it denotes (finite values only; the sign of
  zero and the exponent range are not represented).  Every arithmetic operation
  rounds its exact result to 53 significant bits, ties to even (`rnd`).
* `std::log` and `std::sqrt` come from the platform's libm; they are parameters
  (`Libm`).
* A loop that need not end takes a `fuel : Nat` bounding the number of
  iterations and returns `none` when the bound is reached.
* The library's `__glibcxx_assert` checks (`a <= b` for the integer
  distribution, `stddev > 0` for the normal distribution) expand to nothing
  unless `_GLIBCXX_ASSERTIONS` is defined; they are not part of the embedding.
* Files are a map from paths to texts (`FileSystem`); a write through an open
  stream succeeds.  Undefined behaviour that the code can reach (a null `FILE*`
  handed to stdio, a vector read past its end) is a result of its own (`Fault`).
-/

/-! ## Machine arithmetic -/

/-- Value of a signed integer converted to an unsigned type of `w` bits. -/
def toUnsigned (w : Nat) (i : Int) : Nat := (i % 2 ^ w).toNat

/-- Value of an unsigned integer converted to `int` (32 bits, two's complement). -/
def toInt32 (n : Nat) : Int :=
  if n % 2 ^ 32 < 2 ^ 31 then ((n % 2 ^ 32 : Nat) : Int) else ((n % 2 ^ 32 : Nat) : Int) - 2 ^ 32

/-- The constant `INT_MIN`. -/
def INT_MIN : Int := -2147483648

/-- The constant `INT_MAX`. -/
def INT_MAX : Int := 2147483647

/-- An `int` value. -/
def isInt32 (i : Int) : Prop := INT_MIN ≤ i ∧ i ≤ INT_MAX

instance (i : Int) : Decidable (isInt32 i) := by unfold isInt32; infer_instance

/-! ## Binary64 arithmetic -/

/-- A finite `double`, as the rational number it denotes. -/
abbrev double := ℚ

/-- Auxiliary recursion of `bitLen`, on a bound for the number of digits. -/
def bitLenAux : Nat → Nat → Nat
  | 0, _ => 0
  | f + 1, n => if n = 0 then 0 else bitLenAux f (n / 2) + 1

/-- Number of binary digits of `n`. -/
def bitLen (n : Nat) : Nat := bitLenAux n n

/-- The rational `2 ^ e` for an integer exponent. -/
def pow2 (e : Int) : ℚ :=
  if 0 ≤ e then ((2 ^ e.toNat : Nat) : ℚ) else 1 / ((2 ^ (-e).toNat : Nat) : ℚ)

/-- Round-half-to-even of a non-negative rational to an integer. -/
def roundHalfEven (t : ℚ) : Int :=
  let f : Int := ⌊t⌋
  let r := t - f
  if r < 1 / 2 then f else if 1 / 2 < r then f + 1 else if f % 2 = 0 then f else f + 1

/-- Round `q` to the nearest multiple of `ulp`, ties to the even multiple. -/
def roundTo (ulp q : ℚ) : ℚ :=
  (if q < 0 then -1 else 1) * (roundHalfEven (|q| / ulp) : ℚ) * ulp

/-- Binary exponent `e` of `q ≠ 0`: `2 ^ e ≤ |q| < 2 ^ (e + 1)`. -/
def exponent (q : ℚ) : Int :=
  let a := |q|
  let e0 : Int := (bitLen a.num.natAbs : Int) - (bitLen a.den : Int)
  if pow2 e0 ≤ a then e0 else e0 - 1

/-- Rounding of an exact result to binary64: 53 significant bits, round to
nearest, ties to even. -/
def rnd (q : ℚ) : double :=
  if q = 0 then 0 else roundTo (pow2 (exponent q - 52)) q

/-- Addition of doubles. -/
def fadd (a b : double) : double := rnd (a + b)

/-- Subtraction of doubles. -/
def fsub (a b : double) : double := rnd (a - b)

/-- Multiplication of doubles. -/
def fmul (a b : double) : double := rnd (a * b)

/-- Division of doubles (divisor non-zero). -/
def fdiv (a b : double) : double := rnd (a / b)

/-- A rational that is a `double` value. -/
def isDouble (q : ℚ) : Prop := rnd q = q

instance (q : ℚ) : Decidable (isDouble q) := by unfold isDouble; infer_instance

/-- The libm functions used by `std::normal_distribution`; their rounding is not
specified by any standard, so they are parameters of the model. -/
structure Libm where
  log : double → double
  sqrt : double → double

namespace stdlib

/-! ## `std::mt19937` (bits/random.tcc, `mersenne_twister_engine`) -/

/-- Template parameter `__n` of `mt19937`. -/
def state_size : Nat := 624

/-- Template parameter `__m` of `mt19937`. -/
def shift_size : Nat := 397

/-- The engine `std::mt19937`: the state words `_M_x` and the position `_M_p`. -/
structure mt19937 where
  _M_x : List Nat
  _M_p : Nat
deriving DecidableEq

/-- The loop of `seed(result_type)`: words `i, i+1, ...` from the previous word. -/
def seedFill : Nat → Nat → Nat → List Nat
  | 0, _, _ => []
  | k + 1, i, prev =>
    let x := ((prev ^^^ (prev >>> 30)) * 1812433253 + i % state_size) % 2 ^ 32
    x :: seedFill k (i + 1) x

/-- Member `mersenne_twister_engine::seed(result_type __sd)`: every word and the
position are overwritten. -/
def mt19937.seed (_g : mt19937) (sd : Nat) : mt19937 :=
  let x0 := sd % 2 ^ 32
  { _M_x := x0 :: seedFill (state_size - 1) 1 x0, _M_p := state_size }

/-- One new state word in `_M_gen_rand`, from `_M_x[k]`, `_M_x[k+1]` and
`_M_x[k+m]` (indices modulo `n`). -/
def twistWord (xk xk1 xm : Nat) : Nat :=
  let y := (xk &&& 0x80000000) ||| (xk1 &&& 0x7fffffff)
  xm ^^^ (y >>> 1) ^^^ (if y &&& 1 = 1 then 0x9908b0df else 0)

/-- Iteration `k` of the in-place loops of `_M_gen_rand`. -/
def genStep (x : List Nat) (k : Nat) : List Nat :=
  x.set k (twistWord (x.getD k 0) (x.getD ((k + 1) % state_size) 0)
    (x.getD ((k + shift_size) % state_size) 0))

/-- Member `_M_gen_rand`: regenerate all `n` words in place, reset the position. -/
def mt19937._M_gen_rand (g : mt19937) : mt19937 :=
  { _M_x := (List.range state_size).foldl genStep g._M_x, _M_p := 0 }

/-- The tempering transform of `operator()`. -/
def temper (z0 : Nat) : Nat :=
  let z1 := z0 ^^^ ((z0 >>> 11) &&& 0xffffffff)
  let z2 := z1 ^^^ ((z1 <<< 7) &&& 0x9d2c5680)
  let z3 := z2 ^^^ ((z2 <<< 15) &&& 0xefc60000)
  z3 ^^^ (z3 >>> 18)

/-- Member `operator()`: one 32-bit output and the advanced engine. -/
def mt19937.next (g : mt19937) : Nat × mt19937 :=
  let g1 := if g._M_p ≥ state_size then g._M_gen_rand else g
  (temper (g1._M_x.getD g1._M_p 0), { g1 with _M_p := g1._M_p + 1 })

/-- The engine after `n` outputs have been taken. -/
def mt19937.advance : Nat → mt19937 → mt19937
  | 0, g => g
  | n + 1, g => mt19937.advance n g.next.2

/-- The `n`-th upcoming output (from 0) of the engine. -/
def mt19937.word (n : Nat) (g : mt19937) : Nat := (g.advance n).next.1

/-- The words of a valid engine are 32-bit values, there are `n` of them and the
position is at most `n`. -/
def mt19937.wf (g : mt19937) : Prop :=
  g._M_x.length = state_size ∧ (∀ x ∈ g._M_x, x < 2 ^ 32) ∧ g._M_p ≤ state_size

/-! ## `std::generate_canonical<double, 53>` and `std::uniform_real_distribution` -/

/-- The summation loop of `generate_canonical`: `k` engine calls remain. -/
def canonicalLoop : Nat → double → double → mt19937 → double × double × mt19937
  | 0, sum, tmp, g => (sum, tmp, g)
  | k + 1, sum, tmp, g =>
    canonicalLoop k (fadd sum (fmul (rnd ((g.next.1 - 0 : Nat) : ℚ)) tmp)) (fmul tmp 4294967296)
      g.next.2

/-- Function `std::generate_canonical<double, 53>(mt19937&)`: here `__b = 53`,
`__log2r = 32`, so `__m = max(1, (53 + 32 - 1) / 32) = 2` engine calls. -/
def generate_canonical (g : mt19937) : double × mt19937 :=
  let m := max 1 ((53 + 32 - 1) / 32)
  let r := canonicalLoop m 0 1 g
  let ret := fdiv r.1 r.2.1
  -- `std::nextafter(1.0, 0.0)`
  (if ret ≥ 1 then 1 - 1 / 9007199254740992 else ret, r.2.2)

/-- Parameters of a `std::uniform_real_distribution<double>`. -/
structure uniform_real_distribution where
  a : double
  b : double
deriving DecidableEq

/-- Member `uniform_real_distribution::operator()(urng, p)`. -/
def uniform_real_distribution.call (p : uniform_real_distribution) (g : mt19937) :
    double × mt19937 :=
  let r := generate_canonical g
  (fadd (fmul r.1 (fsub p.b p.a)) p.a, r.2)

end stdlib

namespace stdlib

/-! ## `std::uniform_int_distribution<int>` (bits/uniform_int_dist.h) -/

/-- The redraw loop of `_S_nd` (Lemire's method): `while (__low < __threshold)`;
`fuel` bounds the number of redraws. -/
def ndLoop (range threshold : Nat) : Nat → Nat → mt19937 → Option (Nat × mt19937)
  | fuel, product, g =>
    if product % 2 ^ 32 < threshold then
      match fuel with
      | 0 => none
      | fuel + 1 => ndLoop range threshold fuel ((g.next.1 * range) % 2 ^ 64) g.next.2
    else some (product, g)

/-- Static member `_S_nd<uint64_t>(urng, __range)` with `_Up = uint32_t`: an
unbiased value in `[0, __range)`. -/
def _S_nd (fuel : Nat) (g : mt19937) (range : Nat) : Option (Nat × mt19937) :=
  let product := (g.next.1 * range) % 2 ^ 64
  let low := product % 2 ^ 32
  if low < range then
    let threshold := ((2 ^ 32 - range) % 2 ^ 32) % range
    match ndLoop range threshold fuel product g.next.2 with
    | some (product1, g2) => some (product1 >>> 32, g2)
    | none => none
  else some (product >>> 32, g.next.2)

/-- The threshold `-__range % __range` that `_S_nd` computes in `uint32_t`. -/
def lemireThreshold (range : Nat) : Nat := ((2 ^ 32 - range) % 2 ^ 32) % range

/-- The engine output `w` is one that `_S_nd` rejects for `range`: the low half of
the product `w * range` is below the threshold. -/
def lemireRejects (range w : Nat) : Prop := (w * range) % 2 ^ 64 % 2 ^ 32 < lemireThreshold range

instance (range w : Nat) : Decidable (lemireRejects range w) := by
  unfold lemireRejects; infer_instance

/-- Member `uniform_int_distribution<int>::operator()(urng, param_type(a, b))` for
`mt19937`, whose `result_type` is the 64-bit `unsigned long`: `__uctype` is 64 bits
wide, `__urngrange = 2^32 - 1`.  The branch `__urngrange < __urange` (only reached
when `b < a`) calls the operator on `[0, __urange / 2^32]` inside a do-while loop;
a repetition of that loop is the call at the end of the branch, and `fuel` bounds
both the recursion and the repetitions. -/
def uniform_int_distribution : Nat → Int → Int → mt19937 → Option (Int × mt19937)
  | 0, _, _, _ => none
  | fuel + 1, a, b, g =>
    let urngrange := 4294967295
    let urange := (toUnsigned 64 b + 2 ^ 64 - toUnsigned 64 a) % 2 ^ 64
    if urngrange > urange then
      -- downscaling
      let uerange := (urange + 1) % 2 ^ 64
      let u32erange := uerange % 2 ^ 32
      match _S_nd fuel g u32erange with
      | some (ret, g1) => some (toInt32 ((ret + toUnsigned 64 a) % 2 ^ 64), g1)
      | none => none
    else if urngrange < urange then
      -- upscaling
      let uerngrange := urngrange + 1
      match uniform_int_distribution fuel 0 (toInt32 (urange / uerngrange)) g with
      | none => none
      | some (hi, g1) =>
        let tmp := (uerngrange * toUnsigned 64 hi) % 2 ^ 64
        let ret := (tmp + (g1.next.1 - 0)) % 2 ^ 64
        if ret > urange ∨ ret < tmp then uniform_int_distribution fuel a b g1.next.2
        else some (toInt32 ((ret + toUnsigned 64 a) % 2 ^ 64), g1.next.2)
    else
      some (toInt32 (((g.next.1 - 0) + toUnsigned 64 a) % 2 ^ 64), g.next.2)

/-! ## `std::normal_distribution<double>` (bits/random.h, bits/random.tcc) -/

/-- State of a `std::normal_distribution<double>`: the parameters and the variate
saved by the polar method for the next call. -/
structure normal_distribution where
  mean : double
  stddev : double
  _M_saved : double
  _M_saved_available : Bool
deriving DecidableEq

/-- Constructor `normal_distribution(mean, stddev)`: nothing is saved.  The
constructor of the parameters holds `__glibcxx_assert(stddev > 0)`, which expands
to nothing in a build without `_GLIBCXX_ASSERTIONS`. -/
def normal_distribution.mk0 (mean stddev : double) : normal_distribution :=
  { mean := mean, stddev := stddev, _M_saved := 0, _M_saved_available := false }

/-- Member `normal_distribution::reset()`. -/
def normal_distribution.reset (d : normal_distribution) : normal_distribution :=
  { d with _M_saved_available := false }

/-- The body of the do-while loop of the polar method: a point `(x, y)` of the
square `[-1, 1)²`, its squared radius `r2 = x*x + y*y`, and the advanced engine. -/
def polarDraw (g : mt19937) : double × double × double × mt19937 :=
  let u1 := generate_canonical g
  let x := fsub (fmul 2 u1.1) 1
  let u2 := generate_canonical u1.2
  let y := fsub (fmul 2 u2.1) 1
  (x, y, fadd (fmul x x) (fmul y y), u2.2)

/-- The loop condition `__r2 > 1.0 || __r2 == 0.0` for the point drawn from `g`. -/
def polarRejects (g : mt19937) : Prop :=
  (polarDraw g).2.2.1 > 1 ∨ (polarDraw g).2.2.1 = 0

instance (g : mt19937) : Decidable (polarRejects g) := by
  unfold polarRejects; infer_instance

/-- The do-while loop of the polar method: draw points until `r2` lies in
`(0, 1]`; `fuel` bounds the number of iterations. -/
def polarLoop : Nat → mt19937 → Option (double × double × double × mt19937)
  | 0, _ => none
  | fuel + 1, g =>
    if polarRejects g then polarLoop fuel (polarDraw g).2.2.2 else some (polarDraw g)

/-- Member `normal_distribution::operator()(urng, param)`: the value, the
distribution's new state and the advanced engine. -/
def normal_distribution.call (lm : Libm) (fuel : Nat) (d : normal_distribution)
    (mean stddev : double) (g : mt19937) : Option (double × normal_distribution × mt19937) :=
  if d._M_saved_available then
    some (fadd (fmul d._M_saved stddev) mean, { d with _M_saved_available := false }, g)
  else
    match polarLoop fuel g with
    | none => none
    | some (x, y, r2, g1) =>
      let mult := lm.sqrt (fdiv (fmul (-2) (lm.log r2)) r2)
      some (fadd (fmul (fmul y mult) stddev) mean,
        { d with _M_saved := fmul x mult, _M_saved_available := true }, g1)

end stdlib

open stdlib

/-! ## `class MersenneTwister` (src/src/MersenneTwister.h) -/

/-- The private data members of `MersenneTwister`. -/
structure MersenneTwister where
  generator : mt19937
  default_uniform_real_distribution : uniform_real_distribution
  default_normal_distribution : normal_distribution
deriving DecidableEq

namespace MersenneTwister

/-- The implicit constructor, from the default member initialisers; `entropy` is
the value `std::random_device{}()` returned. -/
def construct (entropy : Nat) : MersenneTwister :=
  { generator := mt19937.seed ⟨[], 0⟩ entropy
    default_uniform_real_distribution := ⟨0, 1⟩
    default_normal_distribution := normal_distribution.mk0 0 1 }

/-- Member `double operator()()`. -/
def operatorCall (s : MersenneTwister) : double × MersenneTwister :=
  let r := s.default_uniform_real_distribution.call s.generator
  (r.1, { s with generator := r.2 })

/-- Member `int integer(int min, int max)`. -/
def integer (fuel : Nat) (min max : Int) (s : MersenneTwister) : Option (Int × MersenneTwister) :=
  match uniform_int_distribution fuel min max s.generator with
  | some (r, g) => some (r, { s with generator := g })
  | none => none

/-- Member `double normal()`. -/
def normal (lm : Libm) (fuel : Nat) (s : MersenneTwister) : Option (double × MersenneTwister) :=
  let d := s.default_normal_distribution
  match d.call lm fuel d.mean d.stddev s.generator with
  | some (r, d1, g) => some (r, { s with generator := g, default_normal_distribution := d1 })
  | none => none

/-- Member `double normal(double mean, double stdDev)`: the distribution is a
temporary. -/
def normal_mean_stdDev (lm : Libm) (fuel : Nat) (mean stdDev : double) (s : MersenneTwister) :
    Option (double × MersenneTwister) :=
  match (normal_distribution.mk0 mean stdDev).call lm fuel mean stdDev s.generator with
  | some (r, _, g) => some (r, { s with generator := g })
  | none => none

/-- Member `void seed(unsigned int seed)`. -/
def seed (s : MersenneTwister) (seed : Nat) : MersenneTwister :=
  { s with generator := s.generator.seed (seed % 2 ^ 32) }

end MersenneTwister

/-- A sampling call with its arguments. -/
inductive Call where
  | uniform
  | integer (min max : Int)
  | normal
  | normal2 (mean stdDev : double)
deriving DecidableEq

/-- A value returned by a sampling call. -/
inductive Output where
  | real (d : double)
  | int (i : Int)
deriving DecidableEq

/-- One sampling call on an instance. -/
def Call.exec (lm : Libm) (fuel : Nat) : Call → MersenneTwister → Option (Output × MersenneTwister)
  | .uniform, s => some (.real s.operatorCall.1, s.operatorCall.2)
  | .integer min max, s => (s.integer fuel min max).map fun p => (.int p.1, p.2)
  | .normal, s => (s.normal lm fuel).map fun p => (.real p.1, p.2)
  | .normal2 mean stdDev, s => (s.normal_mean_stdDev lm fuel mean stdDev).map fun p => (.real p.1, p.2)

/-- The outputs of `n` successive calls `integer(min, max)` and the final state. -/
def integerN (fuel : Nat) (min max : Int) : Nat → MersenneTwister → Option (List Int × MersenneTwister)
  | 0, s => some ([], s)
  | n + 1, s =>
    match s.integer fuel min max with
    | none => none
    | some (r, s1) =>
      match integerN fuel min max n s1 with
      | none => none
      | some (rs, s2) => some (r :: rs, s2)

/-- A sequence of sampling calls on an instance: the outputs in call order and
the final state. -/
def runCalls (lm : Libm) (fuel : Nat) : List Call → MersenneTwister → Option (List Output × MersenneTwister)
  | [], s => some ([], s)
  | c :: cs, s =>
    match c.exec lm fuel s with
    | none => none
    | some (o, s1) =>
      match runCalls lm fuel cs s1 with
      | none => none
      | some (os, s2) => some (o :: os, s2)

/-! ## `printf` conversions and text -/

/-- Conversion `%lu`: the decimal digits of an unsigned integer. -/
def fmt_lu (n : Nat) : String := Nat.repr n

/-- Pad a text with blanks on the left to a minimum field width. -/
def padLeft (width : Nat) (s : String) : String :=
  String.mk (List.replicate (width - s.length) ' ') ++ s

/-- The four decimals of `k < 10000`, zero padded. -/
def fourDigits (k : Nat) : String :=
  String.mk [Nat.digitChar (k / 1000 % 10), Nat.digitChar (k / 100 % 10),
    Nat.digitChar (k / 10 % 10), Nat.digitChar (k % 10)]

/-- Conversion `%5.4f` of a finite double: sign, integer part, point, four
decimals, the exact value rounded to nearest (ties to even) at the fourth
decimal, in a field of at least five characters. -/
def fmt_5_4f (d : double) : String :=
  let m := (roundHalfEven (|d| * 10000)).toNat
  padLeft 5 ((if d < 0 then "-" else "") ++ Nat.repr (m / 10000) ++ "." ++ fourDigits (m % 10000))

/-- The lines of a text: the pieces ended by a newline, and the piece after the
last newline when it is not empty. -/
def linesAux : List Char → List Char → List String
  | cur, [] => if cur = [] then [] else [String.mk cur.reverse]
  | cur, c :: cs => if c = '\n' then String.mk cur.reverse :: linesAux [] cs else linesAux (c :: cur) cs

/-- The lines of a text. -/
def textLines (s : String) : List String := linesAux [] s.data

/-- The text whose lines are `ls`, each ended by a newline. -/
def joinLines : List String → String
  | [] => ""
  | l :: ls => l ++ "\n" ++ joinLines ls

/-- The texts of a list one after the other. -/
def concatTexts : List String → String
  | [] => ""
  | t :: ts => t ++ concatTexts ts

/-- A text without a newline character. -/
def oneLine (s : String) : Prop := '\n' ∉ s.data

instance (s : String) : Decidable (oneLine s) := by unfold oneLine; infer_instance

/-- A text in fixed-point form with exactly four decimals: an optional minus
sign, one or more digits, a point, four digits. -/
def isFixed4 (s : String) : Prop :=
  ∃ (neg : Bool) (ip fp : List Char), s = String.mk ((if neg then ['-'] else []) ++ ip ++ '.' :: fp) ∧
    ip ≠ [] ∧ (∀ c ∈ ip, c.isDigit = true) ∧ fp.length = 4 ∧ (∀ c ∈ fp, c.isDigit = true)

/-! ## stdio: `fopen`, `fprintf`, `fclose` -/

/-- Undefined behaviour reached by the C++ code: a null `FILE*` handed to the
named stdio function, or `std::vector::operator[]` past the end. -/
inductive Fault where
  | nullStream (call : String)
  | outOfRange
deriving DecidableEq

/-- The files: the content of each path (`none`: no such file) and whether
`fopen` on the path succeeds. -/
structure FileSystem where
  content : String → Option String
  openable : String → Bool

/-- The file system `fs1` is `fs` with the content of `path` replaced by `text`. -/
def FileSystem.updatedAt (fs fs1 : FileSystem) (path text : String) : Prop :=
  fs1.content path = some text ∧ (∀ p, p ≠ path → fs1.content p = fs.content p) ∧
    fs1.openable = fs.openable

/-- A `FILE*`: null, or a stream open on the file of the given path. -/
abbrev FILE := Option String

/-- Function `fopen(path, mode)` for the modes `"w"` (create or truncate) and
`"a"` (create or keep, write at the end); null when the file cannot be opened. -/
def fopen (fs : FileSystem) (path mode : String) : FILE × FileSystem :=
  if fs.openable path then
    (some path,
      { fs with content := fun p =>
          if p = path then (if mode = "w" then some "" else some ((fs.content path).getD ""))
          else fs.content p })
  else (none, fs)

/-- Function `fprintf(stream, ...)` once the conversions are done: `text` goes
to the end of the stream's file (the write succeeds; the code does not look at
the value returned). -/
def fprintf (fs : FileSystem) (stream : FILE) (text : String) : Except Fault FileSystem :=
  match stream with
  | none => .error (.nullStream "fprintf")
  | some path =>
    .ok { fs with content := fun p =>
            if p = path then some ((fs.content path).getD "" ++ text) else fs.content p }

/-- Function `fclose(stream)`. -/
def fclose (fs : FileSystem) (stream : FILE) : Except Fault FileSystem :=
  match stream with
  | none => .error (.nullStream "fclose")
  | some _ => .ok fs

/-- Successive `fprintf` calls on one stream, one per text. -/
def fprintfs (stream : FILE) : List String → FileSystem → Except Fault FileSystem
  | [], fs => .ok fs
  | t :: ts, fs =>
    match fprintf fs stream t with
    | .error e => .error e
    | .ok fs1 => fprintfs stream ts fs1

/-- Expression `v[i]` on a `std::vector<double>`. -/
def vectorAt (v : List double) (i : Nat) : Except Fault double :=
  match v[i]? with
  | some x => .ok x
  | none => .error .outOfRange

/-! ## `InputOutput` (src/demos/src/InputOutput.cpp) -/

/-- Modelled from the spec: the class `Particle` is declared in a header that is
not among the sources; the spec gives a particle a position, "a fixed-size real
vector of length 2 or 3", which `InputOutput` reads as `position[i]`. -/
structure Particle where
  position : List double

/-- The `for` loop of `appendXyzTrajectory` from a test of its condition on.  The
counter `i` is an `unsigned int` compared with `particles.size()`: `i++` takes it
from `2^32 - 1` back to 0.  The arguments of `fprintf` are evaluated before the
call; the `0` of the conditional expression is converted to `double`.  At most
`fuel` tests of the condition are made, `none` when that bound is reached. -/
def writeParticles (dimension : Nat) (pFile : FILE) (particles : List Particle) :
    Nat → Nat → FileSystem → Option (Except Fault FileSystem)
  | 0, _, _ => none
  | fuel + 1, i, fs =>
    if h : i < particles.length then
      match vectorAt particles[i].position 0, vectorAt particles[i].position 1,
          (if dimension = 3 then vectorAt particles[i].position 2 else .ok 0) with
      | .ok x, .ok y, .ok z =>
        match fprintf fs pFile ("0 " ++ fmt_5_4f x ++ " " ++ fmt_5_4f y ++ " " ++ fmt_5_4f z ++ "\n") with
        | .error e => some (.error e)
        | .ok fs1 => writeParticles dimension pFile particles fuel ((i + 1) % 2 ^ 32) fs1
      | _, _, _ => some (.error .outOfRange)
    else some (.ok fs)

/-- Member `InputOutput::appendXyzTrajectory(dimension, particles, clearFile)`;
`fuel` bounds the tests of the loop condition. -/
def appendXyzTrajectory (fuel : Nat) (dimension : Nat) (particles : List Particle)
    (clearFile : Bool) (fs : FileSystem) : Option (Except Fault FileSystem) :=
  -- Wipe existing trajectory file.
  match (if clearFile then fclose (fopen fs "trajectory.xyz" "w").2 (fopen fs "trajectory.xyz" "w").1
         else .ok fs) with
  | .error e => some (.error e)
  | .ok fs1 =>
    let pFile := (fopen fs1 "trajectory.xyz" "a").1
    match fprintf (fopen fs1 "trajectory.xyz" "a").2 pFile (fmt_lu particles.length ++ "\n\n") with
    | .error e => some (.error e)
    | .ok fs2 =>
      match writeParticles dimension pFile particles fuel 0 fs2 with
      | none => none
      | some (.error e) => some (.error e)
      | some (.ok fs3) => some (fclose fs3 pFile)

/-- Successive calls of `appendXyzTrajectory`, one per `(dimension, particles,
clearFile)`; `fuel` bounds the loop of each call. -/
def appendXyzTrajectories (fuel : Nat) :
    List (Nat × List Particle × Bool) → FileSystem → Option (Except Fault FileSystem)
  | [], fs => some (.ok fs)
  | (dimension, particles, clearFile) :: rest, fs =>
    match appendXyzTrajectory fuel dimension particles clearFile fs with
    | none => none
    | some (.error e) => some (.error e)
    | some (.ok fs1) => appendXyzTrajectories fuel rest fs1

/-- The line of one particle in a frame, as the spec words it: tag 0, then x,
y, z, with z = 0 unless the dimension is 3. -/
def particleLine (dimension : Nat) (p : Particle) : String :=
  "0 " ++ fmt_5_4f (p.position.getD 0 0) ++ " " ++ fmt_5_4f (p.position.getD 1 0) ++ " "
    ++ fmt_5_4f (if dimension = 3 then p.position.getD 2 0 else 0)

/-- The frame of a particle list, as the spec words it: the count on a line of
its own, an empty line, one line per particle. -/
def xyzFrame (dimension : Nat) (particles : List Particle) : String :=
  joinLines (fmt_lu particles.length :: "" :: particles.map (particleLine dimension))

/-- Member `InputOutput::vmdScript(boxSize)`. -/
def vmdScript (boxSize : List double) (fs : FileSystem) : Except Fault FileSystem :=
  let pFile := (fopen fs "vmd.tcl" "w").1
  match fprintfs pFile
      [ -- Turn on lights 0 and 1.
        "light 0 on\n", "light 1 on\n", "light 2 off\n", "light 3 off\n",
        -- Position the stage and axes.
        "axes location off\n", "stage location off\n",
        -- Set orthographic projection.
        "display projection orthographic\n",
        -- Set drawing method to van der Waals radius.
        "mol modstyle 0 0 VDW 1 30\n",
        -- Set sensible atom radius.
        "set sel [atomselect top \"name X\"]\n", "atomselect0 set radius 0.4\n",
        -- Set default particle to blue.
        "color Name X blue\n",
        -- Turn off depth cue.
        "display depthcue off\n",
        -- Define box boundaries.
        "set minx 0\n" ] (fopen fs "vmd.tcl" "w").2 with
  | .error e => .error e
  | .ok fs1 =>
    match vectorAt boxSize 0 with
    | .error e => .error e
    | .ok b0 =>
      match fprintfs pFile ["set maxx " ++ fmt_5_4f b0 ++ "\n", "set miny 0\n"] fs1 with
      | .error e => .error e
      | .ok fs2 =>
        match vectorAt boxSize 1 with
        | .error e => .error e
        | .ok b1 =>
          match fprintfs pFile ["set maxy " ++ fmt_5_4f b1 ++ "\n"] fs2 with
          | .error e => .error e
          | .ok fs3 =>
            match (if boxSize.length = 3 then
                    match fprintfs pFile ["set minz 0\n"] fs3, vectorAt boxSize 2 with
                    | .ok fs4, .ok b2 => fprintfs pFile ["set maxz " ++ fmt_5_4f b2 ++ "\n"] fs4
                    | .error e, _ => .error e
                    | _, .error e => .error e
                  else fprintfs pFile ["set minz 0\n", "set maxz 0\n"] fs3) with
            | .error e => .error e
            | .ok fs5 =>
              match fprintfs pFile
                  [ -- Set colours.
                    "draw materials off\n", "draw color white\n",
                    -- Draw cube edges.
                    "draw line \"$minx $miny $minz\" \"$maxx $miny $minz\"\n",
                    "draw line \"$minx $miny $minz\" \"$minx $maxy $minz\"\n",
                    "draw line \"$minx $miny $minz\" \"$minx $miny $maxz\"\n",
                    "draw line \"$maxx $miny $minz\" \"$maxx $maxy $minz\"\n",
                    "draw line \"$maxx $miny $minz\" \"$maxx $miny $maxz\"\n",
                    "draw line \"$minx $maxy $minz\" \"$maxx $maxy $minz\"\n",
                    "draw line \"$minx $maxy $minz\" \"$minx $maxy $maxz\"\n",
                    "draw line \"$minx $miny $maxz\" \"$maxx $miny $maxz\"\n",
                    "draw line \"$minx $miny $maxz\" \"$minx $maxy $maxz\"\n",
                    "draw line \"$maxx $maxy $maxz\" \"$maxx $maxy $minz\"\n",
                    "draw line \"$maxx $maxy $maxz\" \"$minx $maxy $maxz\"\n",
                    "draw line \"$maxx $maxy $maxz\" \"$maxx $miny $maxz\"\n" ] fs5 with
              | .error e => .error e
              | .ok fs6 =>
                -- Rotate box.
                match (if boxSize.length = 3 then
                        fprintfs pFile ["rotate x by -60\n", "rotate y by -30\n", "rotate z by -15\n"] fs6
                      else .ok fs6) with
                | .error e => .error e
                | .ok fs7 => fclose fs7 pFile

/-! ## Reading the VMD script -/

/-- A corner of the box, named by the script variables of its three coordinates. -/
abbrev Corner := String × String × String

/-- The pieces of a text between occurrences of a separator. -/
def splitOn (sep : Char) : List Char → List (List Char)
  | [] => [[]]
  | c :: cs =>
    if c = sep then [] :: splitOn sep cs
    else
      match splitOn sep cs with
      | [] => [[c]]
      | l :: ls => (c :: l) :: ls

/-- A script line `set NAME VALUE`: the name and the value. -/
def parseSet (line : String) : Option (String × String) :=
  match line.data with
  | 's' :: 'e' :: 't' :: ' ' :: rest =>
    some (String.mk (rest.takeWhile fun c => c ≠ ' '),
      String.mk ((rest.dropWhile fun c => c ≠ ' ').drop 1))
  | _ => none

/-- A point `$a $b $c`: the three variable names. -/
def parseCorner (s : List Char) : Option Corner :=
  match splitOn ' ' s with
  | [('$' :: a), ('$' :: b), ('$' :: c)] => some (String.mk a, String.mk b, String.mk c)
  | _ => none

/-- A script line `draw line "P" "Q"`: the two end points. -/
def parseDrawLine (line : String) : Option (Corner × Corner) :=
  match line.data with
  | 'd' :: 'r' :: 'a' :: 'w' :: ' ' :: 'l' :: 'i' :: 'n' :: 'e' :: ' ' :: '"' :: rest =>
    match splitOn '"' rest with
    | [p, [' '], q, []] =>
      match parseCorner p, parseCorner q with
      | some a, some b => some (a, b)
      | _, _ => none
    | _ => none
  | _ => none

/-- A script line `rotate ...`. -/
def isRotate (line : String) : Bool :=
  match line.data with
  | 'r' :: 'o' :: 't' :: 'a' :: 't' :: 'e' :: ' ' :: _ => true
  | _ => false

/-- The `set` commands of a script, in order. -/
def setCommands (script : String) : List (String × String) :=
  (textLines script).filterMap parseSet

/-- The segments of the `draw line` commands of a script, in order. -/
def drawLineCommands (script : String) : List (Corner × Corner) :=
  (textLines script).filterMap parseDrawLine

/-- The `rotate` commands of a script, in order. -/
def rotateCommands (script : String) : List String :=
  (textLines script).filter isRotate

/-- The eight corners of the box `[minx,maxx] x [miny,maxy] x [minz,maxz]`. -/
def boxCorners : List Corner :=
  ["minx", "maxx"].flatMap fun x =>
    ["miny", "maxy"].flatMap fun y => ["minz", "maxz"].map fun z => (x, y, z)

/-- The number of coordinates in which two corners differ. -/
def coordinatesDiffering (a b : Corner) : Nat :=
  (if a.1 = b.1 then 0 else 1) + (if a.2.1 = b.2.1 then 0 else 1) + (if a.2.2 = b.2.2 then 0 else 1)

/-- The unordered pairs of distinct positions of a list, each once. -/
def pairsOf : List Corner → List (Corner × Corner)
  | [] => []
  | a :: rest => rest.map (fun b => (a, b)) ++ pairsOf rest

/-- The edges of the box: the unordered pairs of corners that differ in exactly
one coordinate, each listed once. -/
def boxEdges : List (Corner × Corner) :=
  (pairsOf boxCorners).filter fun e => coordinatesDiffering e.1 e.2 = 1

/-- Two segments with the same end points, in either order. -/
def sameSegment (s t : Corner × Corner) : Bool := s = t || s = (t.2, t.1)

/-- The axis (0, 1, 2 for x, y, z) along which a segment between two corners
differing in one coordinate runs. -/
def axisOf (s : Corner × Corner) : Nat :=
  if s.1.1 ≠ s.2.1 then 0 else if s.1.2.1 ≠ s.2.2.1 then 1 else 2

/-- The lines of the script that `vmdScript` is to write for a box size. -/
def vmdScriptLines (boxSize : List double) : List String :=
  [ "light 0 on", "light 1 on", "light 2 off", "light 3 off", "axes location off",
    "stage location off", "display projection orthographic", "mol modstyle 0 0 VDW 1 30",
    "set sel [atomselect top \"name X\"]", "atomselect0 set radius 0.4", "color Name X blue",
    "display depthcue off", "set minx 0" ]
  ++ [ "set maxx " ++ fmt_5_4f (boxSize.getD 0 0), "set miny 0",
       "set maxy " ++ fmt_5_4f (boxSize.getD 1 0), "set minz 0",
       "set maxz " ++ (if boxSize.length = 3 then fmt_5_4f (boxSize.getD 2 0) else "0") ]
  ++ [ "draw materials off", "draw color white",
       "draw line \"$minx $miny $minz\" \"$maxx $miny $minz\"",
       "draw line \"$minx $miny $minz\" \"$minx $maxy $minz\"",
       "draw line \"$minx $miny $minz\" \"$minx $miny $maxz\"",
       "draw line \"$maxx $miny $minz\" \"$maxx $maxy $minz\"",
       "draw line \"$maxx $miny $minz\" \"$maxx $miny $maxz\"",
       "draw line \"$minx $maxy $minz\" \"$maxx $maxy $minz\"",
       "draw line \"$minx $maxy $minz\" \"$minx $maxy $maxz\"",
       "draw line \"$minx $miny $maxz\" \"$maxx $miny $maxz\"",
       "draw line \"$minx $miny $maxz\" \"$minx $maxy $maxz\"",
       "draw line \"$maxx $maxy $maxz\" \"$maxx $maxy $minz\"",
       "draw line \"$maxx $maxy $maxz\" \"$minx $maxy $maxz\"",
       "draw line \"$maxx $maxy $maxz\" \"$maxx $miny $maxz\"" ]
  ++ (if boxSize.length = 3 then ["rotate x by -60", "rotate y by -30", "rotate z by -15"] else [])

/-! # Theorems -/

/-! ## The engine -/

namespace stdlib

theorem temper_lt {z : Nat} (h : z < 2 ^ 32) : temper z < 2 ^ 32 := by
  unfold temper
  have h1 : z ^^^ (z >>> 11 &&& 0xffffffff) < 2 ^ 32 :=
    Nat.xor_lt_two_pow h (Nat.and_lt_two_pow _ (by norm_num))
  have h2 : (z ^^^ (z >>> 11 &&& 0xffffffff)) ^^^
      ((z ^^^ (z >>> 11 &&& 0xffffffff)) <<< 7 &&& 0x9d2c5680) < 2 ^ 32 :=
    Nat.xor_lt_two_pow h1 (Nat.and_lt_two_pow _ (by norm_num))
  refine Nat.xor_lt_two_pow (Nat.xor_lt_two_pow h2 (Nat.and_lt_two_pow _ (by norm_num))) ?_
  rw [Nat.shiftRight_eq_div_pow]
  exact lt_of_le_of_lt (Nat.div_le_self _ _)
    (Nat.xor_lt_two_pow h2 (Nat.and_lt_two_pow _ (by norm_num)))

theorem twistWord_lt {a b c : Nat} (hc : c < 2 ^ 32) :
    twistWord a b c < 2 ^ 32 := by
  unfold twistWord
  have hy : (a &&& 0x80000000) ||| (b &&& 0x7fffffff) < 2 ^ 32 :=
    Nat.or_lt_two_pow (Nat.and_lt_two_pow _ (by norm_num)) (Nat.and_lt_two_pow _ (by norm_num))
  refine Nat.xor_lt_two_pow (Nat.xor_lt_two_pow hc ?_) ?_
  · rw [Nat.shiftRight_eq_div_pow]
    exact lt_of_le_of_lt (Nat.div_le_self _ _) hy
  · split <;> norm_num

/-- Every word of a list bounded by `2^32` read with default 0 is below `2^32`. -/
theorem getD_lt {x : List Nat} (h : ∀ w ∈ x, w < 2 ^ 32) (k : Nat) : x.getD k 0 < 2 ^ 32 := by
  rw [List.getD_eq_getElem?_getD]
  cases hk : x[k]? with
  | none => simp
  | some w =>
    simp only [Option.getD_some]
    exact h w (List.getElem?_mem hk)

theorem genStep_bound {x : List Nat} (h : ∀ w ∈ x, w < 2 ^ 32) (k : Nat) :
    ∀ w ∈ genStep x k, w < 2 ^ 32 := by
  intro w hw
  unfold genStep at hw
  rcases List.mem_or_eq_of_mem_set hw with hw | hw
  · exact h w hw
  · rw [hw]; exact twistWord_lt (getD_lt h _)

theorem genStep_length (x : List Nat) (k : Nat) : (genStep x k).length = x.length := by
  simp [genStep]

theorem foldl_genStep (ks : List Nat) :
    ∀ x : List Nat, (∀ w ∈ x, w < 2 ^ 32) →
      ((ks.foldl genStep x).length = x.length ∧ ∀ w ∈ ks.foldl genStep x, w < 2 ^ 32) := by
  induction ks with
  | nil => intro x h; exact ⟨rfl, h⟩
  | cons k ks ih =>
    intro x h
    have := ih (genStep x k) (genStep_bound h k)
    simp only [List.foldl_cons]
    exact ⟨this.1.trans (genStep_length x k), this.2⟩

theorem seedFill_length (k i prev : Nat) : (seedFill k i prev).length = k := by
  induction k generalizing i prev with
  | zero => rfl
  | succ k ih => simp [seedFill, ih]

theorem seedFill_bound (k : Nat) : ∀ i prev, ∀ w ∈ seedFill k i prev, w < 2 ^ 32 := by
  induction k with
  | zero => intro i prev w hw; simp [seedFill] at hw
  | succ k ih =>
    intro i prev w hw
    simp only [seedFill, List.mem_cons] at hw
    rcases hw with hw | hw
    · rw [hw]; exact Nat.mod_lt _ (by norm_num)
    · exact ih _ _ w hw

/-- After `seed` the engine is valid, whatever it was before. -/
theorem mt19937.seed_wf (g : mt19937) (sd : Nat) : (g.seed sd).wf := by
  refine ⟨?_, ?_, le_refl _⟩
  · simp only [mt19937.seed, List.length_cons, seedFill_length]
    rfl
  · intro w hw
    simp only [mt19937.seed, List.mem_cons] at hw
    rcases hw with hw | hw
    · rw [hw]; exact Nat.mod_lt _ (by norm_num)
    · exact seedFill_bound _ _ _ w hw

theorem mt19937._M_gen_rand_wf {g : mt19937} (h : g.wf) : g._M_gen_rand.wf := by
  have := foldl_genStep (List.range state_size) g._M_x h.2.1
  unfold mt19937.wf mt19937._M_gen_rand
  dsimp only
  exact ⟨this.1.trans h.1, this.2, Nat.zero_le _⟩

/-- An output of a valid engine is a 32-bit value. -/
theorem mt19937.next_lt {g : mt19937} (h : g.wf) : g.next.1 < 2 ^ 32 := by
  unfold mt19937.next
  by_cases hp : g._M_p ≥ state_size
  · simp only [hp, if_true]
    exact temper_lt (getD_lt (mt19937._M_gen_rand_wf h).2.1 _)
  · simp only [hp, if_false]
    exact temper_lt (getD_lt h.2.1 _)

/-- Taking an output keeps the engine valid. -/
theorem mt19937.next_wf {g : mt19937} (h : g.wf) : g.next.2.wf := by
  unfold mt19937.next
  by_cases hp : g._M_p ≥ state_size
  · simp only [hp, if_true]
    have := mt19937._M_gen_rand_wf h
    unfold mt19937.wf at this ⊢
    dsimp only
    refine ⟨this.1, this.2.1, ?_⟩
    unfold mt19937._M_gen_rand state_size
    dsimp only
    norm_num
  · simp only [hp, if_false]
    refine ⟨h.1, h.2.1, ?_⟩
    simp only [ge_iff_le, not_le] at hp
    exact hp

theorem mt19937.advance_wf (n : Nat) : ∀ {g : mt19937}, g.wf → (g.advance n).wf := by
  induction n with
  | zero => intro g h; exact h
  | succ n ih => intro g h; exact ih (mt19937.next_wf h)

theorem mt19937.advance_add (m n : Nat) : ∀ g : mt19937, g.advance (m + n) = (g.advance m).advance n := by
  induction m with
  | zero => intro g; simp [mt19937.advance]
  | succ m ih => intro g; rw [Nat.succ_add]; exact ih g.next.2

end stdlib

/-! ## `uniform_int_distribution` -/

namespace stdlib

theorem toInt32_range (n : Nat) : INT_MIN ≤ toInt32 n ∧ toInt32 n ≤ INT_MAX := by
  unfold toInt32 INT_MIN INT_MAX
  split <;> omega

theorem toInt32_add_toUnsigned {a : Int} {r : Nat} (ha : isInt32 a) (hr : a + r ≤ INT_MAX) :
    toInt32 ((r + toUnsigned 64 a) % 2 ^ 64) = a + r := by
  unfold isInt32 INT_MIN INT_MAX at *
  unfold toInt32 toUnsigned
  split <;> omega

theorem urange_eq {a b : Int} (ha : isInt32 a) (hb : isInt32 b) (hab : a ≤ b) :
    (toUnsigned 64 b + 2 ^ 64 - toUnsigned 64 a) % 2 ^ 64 = (b - a).toNat := by
  unfold isInt32 INT_MIN INT_MAX at *
  unfold toUnsigned
  omega

/-- The high half of the product of a 32-bit word with `range` is below `range`. -/
theorem product_high_lt {w range : Nat} (hw : w < 2 ^ 32) (hr : range < 2 ^ 32) (h0 : 0 < range) :
    ((w * range) % 2 ^ 64) >>> 32 < range := by
  have h1 : w * range < 2 ^ 32 * range := Nat.mul_lt_mul_of_pos_right hw h0
  have h2 : 2 ^ 32 * range < 2 ^ 64 := by
    have : 2 ^ 32 * range < 2 ^ 32 * 2 ^ 32 := Nat.mul_lt_mul_of_pos_left hr (by norm_num)
    calc 2 ^ 32 * range < 2 ^ 32 * 2 ^ 32 := this
      _ = 2 ^ 64 := by norm_num
  rw [Nat.mod_eq_of_lt (lt_trans h1 h2), Nat.shiftRight_eq_div_pow]
  exact Nat.div_lt_of_lt_mul h1

/-- What the redraw loop of `_S_nd` returns: a product whose high half is below
`range`, and an engine that is the given one advanced by some number of outputs. -/
theorem ndLoop_spec {range threshold : Nat} (hr : range < 2 ^ 32) (h0 : 0 < range) (fuel : Nat) :
    ∀ (product : Nat) (g : mt19937) (p : Nat) (g1 : mt19937), g.wf → product >>> 32 < range →
      ndLoop range threshold fuel product g = some (p, g1) →
      p >>> 32 < range ∧ g1.wf ∧ ∃ k, g1 = g.advance k := by
  induction fuel with
  | zero =>
    intro product g p g1 hg hp h
    unfold ndLoop at h
    split at h
    · simp at h
    · simp only [Option.some.injEq, Prod.mk.injEq] at h
      obtain ⟨rfl, rfl⟩ := h
      exact ⟨hp, hg, 0, rfl⟩
  | succ fuel ih =>
    intro product g p g1 hg hp h
    unfold ndLoop at h
    split at h
    · obtain ⟨h1, h2, k, hk⟩ := ih _ _ p g1 (mt19937.next_wf hg)
        (product_high_lt (mt19937.next_lt hg) hr h0) h
      exact ⟨h1, h2, k + 1, by rw [hk, Nat.add_comm k 1, mt19937.advance_add]; rfl⟩
    · simp only [Option.some.injEq, Prod.mk.injEq] at h
      obtain ⟨rfl, rfl⟩ := h
      exact ⟨hp, hg, 0, rfl⟩

/-- What `_S_nd` returns: a value of `[0, range)`, after at least one output. -/
theorem _S_nd_spec {range : Nat} (hr : range < 2 ^ 32) (h0 : 0 < range) (fuel : Nat)
    (g : mt19937) (hg : g.wf) (ret : Nat) (g1 : mt19937)
    (h : _S_nd fuel g range = some (ret, g1)) :
    ret < range ∧ g1.wf ∧ ∃ k, 1 ≤ k ∧ g1 = g.advance k := by
  unfold _S_nd at h
  dsimp only at h
  have hp := product_high_lt (mt19937.next_lt hg) hr h0
  split at h
  · split at h
    · rename_i p g2 heq
      simp only [Option.some.injEq, Prod.mk.injEq] at h
      obtain ⟨rfl, rfl⟩ := h
      obtain ⟨h1, h2, k, hk⟩ := ndLoop_spec hr h0 fuel _ _ p g2 (mt19937.next_wf hg) hp heq
      exact ⟨h1, h2, k + 1, by omega, by rw [hk, Nat.add_comm k 1, mt19937.advance_add]; rfl⟩
    · simp at h
  · simp only [Option.some.injEq, Prod.mk.injEq] at h
    obtain ⟨rfl, rfl⟩ := h
    exact ⟨hp, mt19937.next_wf hg, 1, le_refl _, rfl⟩

/-- Range of `uniform_int_distribution<int>{a, b}(g)` for `a ≤ b`: whatever it
returns lies in `[a, b]`, and the engine has advanced by at least one output. -/
theorem uniform_int_distribution_spec {a b : Int} (ha : isInt32 a) (hb : isInt32 b) (hab : a ≤ b)
    (fuel : Nat) (g : mt19937) (hg : g.wf) (r : Int) (g1 : mt19937)
    (h : uniform_int_distribution fuel a b g = some (r, g1)) :
    (a ≤ r ∧ r ≤ b) ∧ g1.wf ∧ ∃ k, 1 ≤ k ∧ g1 = g.advance k := by
  cases fuel with
  | zero => simp [uniform_int_distribution] at h
  | succ fuel =>
    unfold uniform_int_distribution at h
    dsimp only at h
    rw [urange_eq ha hb hab] at h
    have hlt : (b - a).toNat < 2 ^ 32 := by
      unfold isInt32 INT_MIN INT_MAX at *; omega
    split at h
    · rename_i hdown
      have hr1 : ((b - a).toNat + 1) % 2 ^ 64 % 2 ^ 32 = (b - a).toNat + 1 := by omega
      rw [hr1] at h
      split at h
      · rename_i ret g2 heq
        simp only [Option.some.injEq, Prod.mk.injEq] at h
        obtain ⟨rfl, rfl⟩ := h
        obtain ⟨h1, h2, h3⟩ := _S_nd_spec (by omega) (by omega) fuel g hg ret g2 heq
        have : a + (ret : Int) ≤ INT_MAX := by
          unfold isInt32 INT_MIN INT_MAX at *; omega
        rw [toInt32_add_toUnsigned ha this]
        exact ⟨⟨by omega, by omega⟩, h2, h3⟩
      · simp at h
    · split at h
      · omega
      · simp only [Option.some.injEq, Prod.mk.injEq] at h
        obtain ⟨rfl, rfl⟩ := h
        have := toInt32_range ((g.next.1 - 0 + toUnsigned 64 a) % 2 ^ 64)
        refine ⟨⟨?_, ?_⟩, mt19937.next_wf hg, 1, le_refl _, rfl⟩
        · unfold isInt32 INT_MIN INT_MAX at *; omega
        · unfold isInt32 INT_MIN INT_MAX at *; omega

end stdlib

namespace stdlib

theorem mt19937.word_succ (k : Nat) (g : mt19937) : g.word (k + 1) = g.next.2.word k := by
  unfold mt19937.word
  rw [Nat.add_comm k 1, mt19937.advance_add]
  rfl

/-- The redraw loop of `_S_nd` ends within `n` redraws when the pending product
is accepted or one of the next `n` outputs is. -/
theorem ndLoop_live (range : Nat) (n : Nat) :
    ∀ (product : Nat) (g : mt19937),
      (¬ product % 2 ^ 32 < lemireThreshold range ∨ ∃ k, k < n ∧ ¬ lemireRejects range (g.word k)) →
      ∃ r, ndLoop range (lemireThreshold range) n product g = some r := by
  induction n with
  | zero =>
    intro product g h
    rcases h with h | ⟨k, hk, _⟩
    · exact ⟨_, by unfold ndLoop; rw [if_neg h]⟩
    · omega
  | succ n ih =>
    intro product g h
    unfold ndLoop
    by_cases hp : product % 2 ^ 32 < lemireThreshold range
    · rw [if_pos hp]
      apply ih
      rcases h with h | ⟨k, hk, hacc⟩
      · exact absurd hp h
      · cases k with
        | zero => left; exact hacc
        | succ k => right; exact ⟨k, by omega, by rw [← mt19937.word_succ]; exact hacc⟩
    · exact ⟨_, by rw [if_neg hp]⟩

/-- Method `_S_nd` returns within `n` redraws when one of the first `n + 1`
outputs is not rejected. -/
theorem _S_nd_live (range : Nat) (n : Nat) (g : mt19937)
    (h : ∃ k, k ≤ n ∧ ¬ lemireRejects range (g.word k)) :
    ∃ r, _S_nd n g range = some r := by
  unfold _S_nd
  dsimp only
  split
  · have : ∃ r, ndLoop range (lemireThreshold range) n ((g.next.1 * range) % 2 ^ 64)
        g.next.2 = some r := by
      apply ndLoop_live
      obtain ⟨k, hk, hacc⟩ := h
      cases k with
      | zero => left; exact hacc
      | succ k => right; exact ⟨k, by omega, by rw [← mt19937.word_succ]; exact hacc⟩
    obtain ⟨⟨p, g2⟩, hr⟩ := this
    unfold lemireThreshold at hr
    rw [hr]
    exact ⟨_, rfl⟩
  · exact ⟨_, rfl⟩

/-- For the range 1 `_S_nd` returns 0 after exactly one output. -/
theorem _S_nd_one (fuel : Nat) (g : mt19937) (hg : g.wf) :
    _S_nd fuel g 1 = some (0, g.next.2) := by
  have hw := mt19937.next_lt hg
  unfold _S_nd
  dsimp only
  generalize g.next = n at hw ⊢
  have hmod : n.1 * 1 % 2 ^ 64 = n.1 := by omega
  have hs : n.1 >>> 32 = 0 := by
    rw [Nat.shiftRight_eq_div_pow]; omega
  rw [hmod]
  split
  · have h1 : ((2 ^ 32 - 1) % 2 ^ 32) % 1 = 0 := Nat.mod_one _
    rw [h1]
    unfold ndLoop
    rw [if_neg (Nat.not_lt_zero _)]
    dsimp only
    rw [hs]
  · rw [hs]

/-- With `a = b` the distribution returns `a` after exactly one output. -/
theorem uniform_int_distribution_single {a : Int} (ha : isInt32 a) (fuel : Nat) (g : mt19937)
    (hg : g.wf) : uniform_int_distribution (fuel + 1) a a g = some (a, g.next.2) := by
  have hnd := _S_nd_one fuel g hg
  unfold uniform_int_distribution
  dsimp only
  rw [urange_eq ha ha (le_refl a)]
  have h0 : (a - a).toNat = 0 := by omega
  generalize g.next = n at hnd ⊢
  rw [h0, if_pos (by norm_num : 4294967295 > 0)]
  have h1 : (0 + 1) % 2 ^ 64 % 2 ^ 32 = 1 := by norm_num
  rw [h1, hnd]
  dsimp only
  have := toInt32_add_toUnsigned (r := 0) ha (by unfold isInt32 at ha; simpa using ha.2)
  simp only [Nat.cast_zero, add_zero] at this
  rw [this]

/-- Over the full range of `int` the distribution returns after exactly one output. -/
theorem uniform_int_distribution_full (fuel : Nat) (g : mt19937) :
    uniform_int_distribution (fuel + 1) INT_MIN INT_MAX g
      = some (toInt32 ((g.next.1 + toUnsigned 64 INT_MIN) % 2 ^ 64), g.next.2) := by
  unfold uniform_int_distribution
  dsimp only
  have : (toUnsigned 64 INT_MAX + 2 ^ 64 - toUnsigned 64 INT_MIN) % 2 ^ 64 = 4294967295 := by
    unfold toUnsigned INT_MAX INT_MIN
    omega
  generalize g.next = n
  rw [this, if_neg (by norm_num), if_neg (by norm_num)]
  rfl

/-- The distribution returns when one of the first `n + 1` outputs is not rejected
by Lemire's test for the range `b - a + 1`. -/
theorem uniform_int_distribution_live {a b : Int} (ha : isInt32 a) (hb : isInt32 b) (hab : a ≤ b)
    (n : Nat) (g : mt19937)
    (h : ∃ k, k ≤ n ∧ ¬ lemireRejects ((b - a).toNat + 1) (g.word k)) :
    ∃ r, uniform_int_distribution (n + 1) a b g = some r := by
  unfold uniform_int_distribution
  dsimp only
  rw [urange_eq ha hb hab]
  have hlt : (b - a).toNat < 2 ^ 32 := by
    unfold isInt32 INT_MIN INT_MAX at *; omega
  split
  · have hr1 : ((b - a).toNat + 1) % 2 ^ 64 % 2 ^ 32 = (b - a).toNat + 1 := by omega
    rw [hr1]
    obtain ⟨⟨ret, g2⟩, hr⟩ := _S_nd_live _ n g h
    rw [hr]
    exact ⟨_, rfl⟩
  · split
    · omega
    · exact ⟨_, rfl⟩

end stdlib

namespace stdlib

/-- When the first output is not rejected, `_S_nd` returns after that output. -/
theorem _S_nd_first (range fuel : Nat) (g : mt19937) (hacc : ¬ lemireRejects range g.next.1) :
    _S_nd fuel g range = some (((g.next.1 * range) % 2 ^ 64) >>> 32, g.next.2) := by
  unfold lemireRejects lemireThreshold at hacc
  unfold _S_nd
  dsimp only
  generalize g.next = n at hacc ⊢
  split
  · unfold ndLoop
    rw [if_neg hacc]
  · rfl

/-- When the first output is not rejected, the distribution returns after that
output. -/
theorem uniform_int_distribution_first {a b : Int} (ha : isInt32 a) (hb : isInt32 b)
    (hab : a ≤ b) (fuel : Nat) (g : mt19937)
    (hacc : ¬ lemireRejects ((b - a).toNat + 1) g.next.1) :
    ∃ r, uniform_int_distribution (fuel + 1) a b g = some (r, g.next.2) := by
  have hnd := _S_nd_first _ fuel g hacc
  unfold uniform_int_distribution
  dsimp only
  rw [urange_eq ha hb hab]
  have hlt : (b - a).toNat < 2 ^ 32 := by
    unfold isInt32 INT_MIN INT_MAX at *; omega
  generalize g.next = n at hnd ⊢
  split
  · have hr1 : ((b - a).toNat + 1) % 2 ^ 64 % 2 ^ 32 = (b - a).toNat + 1 := by omega
    rw [hr1, hnd]
    exact ⟨_, rfl⟩
  · split
    · omega
    · exact ⟨_, rfl⟩

/-- No output is rejected when `2^32` is a multiple of the range. -/
theorem lemireRejects_of_dvd {range : Nat} (h0 : 0 < range) (hr : range ≤ 2 ^ 32)
    (hdiv : 2 ^ 32 % range = 0) (w : Nat) : ¬ lemireRejects range w := by
  unfold lemireRejects lemireThreshold
  have : (2 ^ 32 - range) % 2 ^ 32 % range = 0 := by
    rcases Nat.lt_or_ge (2 ^ 32 - range) (2 ^ 32) with h | h
    · rw [Nat.mod_eq_of_lt h]
      have h2 : 2 ^ 32 = (2 ^ 32 - range) + range := by omega
      rw [h2, Nat.add_mod_right] at hdiv
      exact hdiv
    · omega
  rw [this]
  exact Nat.not_lt_zero _

end stdlib

/-! ## Rounding -/

theorem pow2_pos (e : Int) : 0 < pow2 e := by
  unfold pow2
  split
  · exact_mod_cast pow_pos (by norm_num : (0 : ℕ) < 2) _
  · apply div_pos one_pos
    exact_mod_cast pow_pos (by norm_num : (0 : ℕ) < 2) _

theorem roundHalfEven_nonneg {t : ℚ} (h : 0 ≤ t) : 0 ≤ roundHalfEven t := by
  have hf : (0 : Int) ≤ ⌊t⌋ := Int.floor_nonneg.mpr h
  unfold roundHalfEven
  dsimp only
  split
  · exact hf
  · split
    · omega
    · split <;> omega

/-- Rounding to an integer does not cross an integer bound. -/
theorem roundHalfEven_le {t : ℚ} {n : Int} (h : t ≤ n) : roundHalfEven t ≤ n := by
  have hf : ⌊t⌋ ≤ n := by
    have := Int.floor_le_floor h
    rwa [Int.floor_intCast] at this
  unfold roundHalfEven
  dsimp only
  by_cases heq : ⌊t⌋ = n
  · have ht : t = n := le_antisymm h (by rw [← heq]; exact Int.floor_le t)
    have : t - (⌊t⌋ : ℚ) < 1 / 2 := by rw [heq, ht]; norm_num
    rw [if_pos this, heq]
  · have : ⌊t⌋ + 1 ≤ n := by omega
    split
    · exact hf
    · split
      · exact this
      · split
        · exact hf
        · exact this

/-- At most a half rounds to at most zero. -/
theorem roundHalfEven_le_zero {t : ℚ} (h : t ≤ 1 / 2) : roundHalfEven t ≤ 0 := by
  have hf : ⌊t⌋ ≤ 0 := by
    have : ⌊t⌋ < 1 := Int.floor_lt.mpr (lt_of_le_of_lt h (by norm_num))
    omega
  unfold roundHalfEven
  dsimp only
  by_cases heq : ⌊t⌋ = 0
  · rw [heq]
    simp only [Int.cast_zero, sub_zero]
    split
    · exact le_refl _
    · split
      · exact absurd h (not_le.mpr ‹_›)
      · simp
  · have : ⌊t⌋ + 1 ≤ 0 := by omega
    split
    · exact hf
    · split
      · exact this
      · split
        · exact hf
        · exact this

theorem rnd_zero : rnd 0 = 0 := by simp [rnd]

theorem rnd_nonneg {q : ℚ} (h : 0 ≤ q) : 0 ≤ rnd q := by
  unfold rnd
  split
  · exact le_refl _
  · unfold roundTo
    rw [if_neg (not_lt.mpr h), one_mul]
    have hp := pow2_pos (exponent q - 52)
    apply mul_nonneg _ hp.le
    exact_mod_cast roundHalfEven_nonneg (div_nonneg (abs_nonneg q) hp.le)

theorem rnd_le_one {q : ℚ} (h : q ≤ 1) : rnd q ≤ 1 := by
  unfold rnd
  split
  · exact zero_le_one
  · unfold roundTo
    have hp := pow2_pos (exponent q - 52)
    by_cases hneg : q < 0
    · rw [if_pos hneg]
      have : (0 : ℚ) ≤ (roundHalfEven (|q| / pow2 (exponent q - 52)) : ℚ) := by
        exact_mod_cast roundHalfEven_nonneg (div_nonneg (abs_nonneg q) hp.le)
      nlinarith
    · rw [if_neg hneg, one_mul, abs_of_nonneg (not_lt.mp hneg)]
      generalize exponent q - 52 = k at hp ⊢
      unfold pow2 at hp ⊢
      split at hp
      · -- the unit is a natural number `m ≥ 1`
        rename_i hk
        rw [if_pos hk]
        generalize (2 ^ k.toNat : ℕ) = m at hp ⊢
        have hm : (1 : ℚ) ≤ m := by
          have : 0 < m := by exact_mod_cast hp
          exact_mod_cast this
        by_cases h1 : m = 1
        · subst h1
          simp only [Nat.cast_one, div_one, mul_one]
          exact_mod_cast roundHalfEven_le (n := 1) (by simpa using h)
        · have hm2 : (2 : ℚ) ≤ m := by
            have : 0 < m := by exact_mod_cast hp
            have : 2 ≤ m := by omega
            exact_mod_cast this
          have ht : q / (m : ℚ) ≤ 1 / 2 := by
            rw [div_le_iff₀ (by linarith)]
            linarith
          have := roundHalfEven_le_zero ht
          have h0 : ((roundHalfEven (q / (m : ℚ)) : Int) : ℚ) ≤ 0 := by exact_mod_cast this
          nlinarith
      · -- the unit is `1 / m` for a natural number `m ≥ 1`
        rename_i hk
        rw [if_neg hk]
        generalize (2 ^ (-k).toNat : ℕ) = m at hp ⊢
        have hm : (0 : ℚ) < m := by
          rcases Nat.eq_zero_or_pos m with h0 | h0
          · subst h0; simp at hp
          · exact_mod_cast h0
        have ht : q / (1 / (m : ℚ)) ≤ ((m : Int) : ℚ) := by
          rw [div_div_eq_mul_div, div_one]
          push_cast
          nlinarith
        have := roundHalfEven_le ht
        have h0 : ((roundHalfEven (q / (1 / (m : ℚ))) : Int) : ℚ) ≤ m := by exact_mod_cast this
        rw [mul_one_div, div_le_one hm]
        exact h0

theorem rnd_one : rnd 1 = 1 := by decide!

/-! ## `generate_canonical`, the polar loop -/

namespace stdlib

/-- Function `generate_canonical` takes exactly two outputs of the engine. -/
theorem generate_canonical_advance (g : mt19937) : (generate_canonical g).2 = g.advance 2 := rfl

/-- The value of `generate_canonical` lies in `[0, 1)`. -/
theorem generate_canonical_range (g : mt19937) :
    0 ≤ (generate_canonical g).1 ∧ (generate_canonical g).1 < 1 := by
  unfold generate_canonical
  dsimp only
  have hm : max 1 ((53 + 32 - 1) / 32) = 2 := by decide
  rw [hm]
  simp only [canonicalLoop]
  generalize g.next = n1
  generalize n1.2.next = n2
  have hsum : 0 ≤ fadd (fadd 0 (fmul (rnd ((n1.1 - 0 : ℕ) : ℚ)) 1))
      (fmul (rnd ((n2.1 - 0 : ℕ) : ℚ)) (fmul 1 4294967296)) := by
    unfold fadd fmul
    exact rnd_nonneg (add_nonneg (rnd_nonneg (add_nonneg (le_refl _)
      (rnd_nonneg (mul_nonneg (rnd_nonneg (Nat.cast_nonneg _)) zero_le_one))))
      (rnd_nonneg (mul_nonneg (rnd_nonneg (Nat.cast_nonneg _)) (rnd_nonneg (by norm_num)))))
  have htmp : 0 ≤ fmul (fmul 1 4294967296) 4294967296 := by
    unfold fmul
    exact rnd_nonneg (mul_nonneg (rnd_nonneg (by norm_num)) (by norm_num))
  have hdiv := rnd_nonneg (div_nonneg hsum htmp)
  split
  · norm_num
  · rename_i hlt
    exact ⟨hdiv, not_le.mp hlt⟩

theorem polarDraw_advance (g : mt19937) : (polarDraw g).2.2.2 = g.advance 4 := rfl

/-- The polar loop returns the first accepted point at once. -/
theorem polarLoop_accept (fuel : Nat) (g : mt19937) (h : ¬ polarRejects g) :
    polarLoop (fuel + 1) g = some (polarDraw g) := by
  unfold polarLoop
  rw [if_neg h]

/-- Whatever the polar loop returns is an accepted point, `r2` in `(0, 1]`, and
the engine has advanced by four outputs for each iteration. -/
theorem polarLoop_spec (fuel : Nat) :
    ∀ (g : mt19937) (r : double × double × double × mt19937), polarLoop fuel g = some r →
      ¬ (r.2.2.1 > 1 ∨ r.2.2.1 = 0) ∧ ∃ k, 1 ≤ k ∧ r.2.2.2 = g.advance (4 * k) := by
  induction fuel with
  | zero => intro g r h; simp [polarLoop] at h
  | succ fuel ih =>
    intro g r h
    unfold polarLoop at h
    split at h
    · obtain ⟨h1, k, hk, hg⟩ := ih _ r h
      refine ⟨h1, k + 1, by omega, ?_⟩
      rw [hg, polarDraw_advance, ← mt19937.advance_add]
      congr 1
      omega
    · rename_i hacc
      simp only [Option.some.injEq] at h
      subst h
      exact ⟨hacc, 1, le_refl _, polarDraw_advance g⟩

/-- The polar loop returns within `n + 1` iterations when one of the first `n + 1`
points is accepted. -/
theorem polarLoop_live (n : Nat) :
    ∀ g : mt19937, (∃ k, k ≤ n ∧ ¬ polarRejects (g.advance (4 * k))) →
      ∃ r, polarLoop (n + 1) g = some r := by
  induction n with
  | zero =>
    intro g h
    obtain ⟨k, hk, hacc⟩ := h
    have : k = 0 := by omega
    subst this
    exact ⟨_, polarLoop_accept 0 g hacc⟩
  | succ n ih =>
    intro g h
    by_cases hr : polarRejects g
    · unfold polarLoop
      rw [if_pos hr]
      apply ih
      obtain ⟨k, hk, hacc⟩ := h
      cases k with
      | zero => exact absurd hr hacc
      | succ k =>
        refine ⟨k, by omega, ?_⟩
        rw [polarDraw_advance, ← mt19937.advance_add]
        have : 4 + 4 * k = 4 * (k + 1) := by omega
        rw [this]
        exact hacc
    · exact ⟨_, polarLoop_accept _ g hr⟩

end stdlib

/-! ## `MersenneTwister`: the members -/

namespace MersenneTwister

/-- Member `seed` overwrites the whole generator: the result does not depend on
the generator's earlier state. -/
theorem seed_generator (s : MersenneTwister) (sd : Nat) :
    (s.seed sd).generator = mt19937.seed ⟨[], 0⟩ (sd % 2 ^ 32) := rfl

/-- Member `seed` leaves both distribution members as they are. -/
theorem seed_distributions (s : MersenneTwister) (sd : Nat) :
    (s.seed sd).default_uniform_real_distribution = s.default_uniform_real_distribution ∧
    (s.seed sd).default_normal_distribution = s.default_normal_distribution := ⟨rfl, rfl⟩

/-- Member `integer` changes the generator only. -/
theorem integer_frame {fuel : Nat} {min max r : Int} {s s1 : MersenneTwister}
    (h : s.integer fuel min max = some (r, s1)) :
    s1.default_uniform_real_distribution = s.default_uniform_real_distribution ∧
    s1.default_normal_distribution = s.default_normal_distribution := by
  unfold integer at h
  split at h
  · simp only [Option.some.injEq, Prod.mk.injEq] at h
    obtain ⟨_, rfl⟩ := h
    exact ⟨rfl, rfl⟩
  · simp at h

theorem integerN_frame (fuel : Nat) (min max : Int) (n : Nat) :
    ∀ (s s1 : MersenneTwister) (rs : List Int), integerN fuel min max n s = some (rs, s1) →
      s1.default_uniform_real_distribution = s.default_uniform_real_distribution ∧
      s1.default_normal_distribution = s.default_normal_distribution := by
  induction n with
  | zero =>
    intro s s1 rs h
    simp only [integerN, Option.some.injEq, Prod.mk.injEq] at h
    obtain ⟨_, rfl⟩ := h
    exact ⟨rfl, rfl⟩
  | succ n ih =>
    intro s s1 rs h
    unfold integerN at h
    split at h
    · simp at h
    · rename_i r s2 h2
      split at h
      · simp at h
      · rename_i rs2 s3 h3
        simp only [Option.some.injEq, Prod.mk.injEq] at h
        obtain ⟨_, rfl⟩ := h
        have a := integer_frame h2
        have b := ih _ _ _ h3
        exact ⟨b.1.trans a.1, b.2.trans a.2⟩

/-- Two instances that agree on their distribution members are equal after
`seed` with the same seed. -/
theorem seed_eq_of_distributions (s t : MersenneTwister) (sd : Nat)
    (hu : s.default_uniform_real_distribution = t.default_uniform_real_distribution)
    (hn : s.default_normal_distribution = t.default_normal_distribution) :
    s.seed sd = t.seed sd := by
  cases s; cases t
  simp only at hu hn
  subst hu hn
  rfl

/-- Reseeding two instances whose distribution members agree makes every later
sequence of calls return the same outputs. -/
theorem runCalls_seed_deterministic (lm : Libm) (fuel : Nat) (calls : List Call)
    (s t : MersenneTwister) (sd : Nat)
    (hu : s.default_uniform_real_distribution = t.default_uniform_real_distribution)
    (hn : s.default_normal_distribution = t.default_normal_distribution) :
    runCalls lm fuel calls (s.seed sd) = runCalls lm fuel calls (t.seed sd) := by
  rw [seed_eq_of_distributions s t sd hu hn]

end MersenneTwister

open MersenneTwister

/-- C3. On one instance, `seed(s)` followed by `n` calls of `integer(min, max)`,
then `seed(s)` again followed by the same `n` calls: when the first `n` calls
return the values `rs`, the second `n` calls return and their values are `rs`
again, element for element. -/
theorem reseed_repeats_integer_sequence (fuel : Nat) (s : MersenneTwister) (sd : Nat)
    (min max : Int) (n : Nat) (rs : List Int)
    (h : (integerN fuel min max n (s.seed sd)).map Prod.fst = some rs) :
    ((integerN fuel min max n (s.seed sd)).bind fun p =>
      (integerN fuel min max n (p.2.seed sd)).map Prod.fst) = some rs := by
  cases h1 : integerN fuel min max n (s.seed sd) with
  | none => rw [h1] at h; simp at h
  | some p =>
    obtain ⟨rs1, s1⟩ := p
    rw [h1] at h
    have hf := integerN_frame fuel min max n _ _ _ h1
    show (integerN fuel min max n (s1.seed sd)).map Prod.fst = some rs
    rw [seed_eq_of_distributions s1 s sd
      (hf.1.trans (seed_distributions s sd).1) (hf.2.trans (seed_distributions s sd).2), h1]
    exact h

/-- The spec's scenario for C3: seed 42, ten calls of `integer(1, 6)`, twice. -/
theorem reseed_repeats_integer_sequence_witness :
    (integerN 1 1 6 10 ((construct 0).seed 42)).map Prod.fst
      = some [3, 5, 6, 2, 5, 5, 4, 4, 1, 3] ∧
    ((integerN 1 1 6 10 ((construct 0).seed 42)).bind fun p =>
      (integerN 1 1 6 10 (p.2.seed 42)).map Prod.fst) = some [3, 5, 6, 2, 5, 5, 4, 4, 1, 3] :=
  ⟨by decide!,
   reseed_repeats_integer_sequence 1 (construct 0) 42 1 6 10 [3, 5, 6, 2, 5, 5, 4, 4, 1, 3]
     (by decide!)⟩

/-- C2. For every valid generator state and all `int` bounds `min ≤ max`
(`INT_MIN`, `INT_MAX` included): every value `integer(min, max)` returns lies in
`[min, max]`; with `min = max` the call returns `min`; the call returns after one
generator output whenever `2^32` is a multiple of the range size `max - min + 1`
(so for `min = max` and for the full range of `int`), and otherwise as soon as
the generator gives an output that the library's rejection test accepts. -/
theorem integer_within_bounds (s : MersenneTwister) (min max : Int) (hg : s.generator.wf)
    (hmin : isInt32 min) (hmax : isInt32 max) (h : min ≤ max) :
    (∀ fuel r s1, s.integer fuel min max = some (r, s1) → min ≤ r ∧ r ≤ max) ∧
    (min = max → ∀ fuel,
      s.integer (fuel + 1) min max = some (min, { s with generator := s.generator.advance 1 })) ∧
    (2 ^ 32 % ((max - min).toNat + 1) = 0 → ∀ fuel, ∃ r,
      s.integer (fuel + 1) min max = some (r, { s with generator := s.generator.advance 1 })) ∧
    (∀ n, (∃ k, k ≤ n ∧ ¬ lemireRejects ((max - min).toNat + 1) (s.generator.word k)) →
      ∃ r s1, s.integer (n + 1) min max = some (r, s1)) := by
  refine ⟨?_, ?_, ?_, ?_⟩
  · intro fuel r s1 hr
    unfold integer at hr
    split at hr
    · rename_i r0 g0 h0
      simp only [Option.some.injEq, Prod.mk.injEq] at hr
      obtain ⟨rfl, _⟩ := hr
      exact (uniform_int_distribution_spec hmin hmax h fuel _ hg _ _ h0).1
    · simp at hr
  · intro heq fuel
    subst heq
    unfold integer
    rw [uniform_int_distribution_single hmin fuel _ hg]
    rfl
  · intro hdiv fuel
    have hlt : (max - min).toNat + 1 ≤ 2 ^ 32 := by
      unfold isInt32 INT_MIN INT_MAX at *; omega
    obtain ⟨r, hr⟩ := uniform_int_distribution_first hmin hmax h fuel s.generator
      (lemireRejects_of_dvd (by omega) hlt hdiv _)
    exact ⟨r, by unfold integer; rw [hr]; rfl⟩
  · intro n hn
    obtain ⟨⟨r, g1⟩, hr⟩ := uniform_int_distribution_live hmin hmax h n s.generator hn
    exact ⟨r, _, by unfold integer; rw [hr]⟩

/-- Example for C2: after seed 42, `integer(1, 6)` returns 3, which lies in `[1, 6]`. -/
theorem integer_within_bounds_witness :
    ((construct 0).seed 42).generator.wf ∧ isInt32 1 ∧ isInt32 6 ∧ (1 : Int) ≤ 6 ∧
    (((construct 0).seed 42).integer 1 1 6).map Prod.fst = some 3 ∧
    (∀ fuel r s1, ((construct 0).seed 42).integer fuel 1 6 = some (r, s1) → 1 ≤ r ∧ r ≤ 6) :=
  ⟨mt19937.seed_wf (construct 0).generator (42 % 2 ^ 32), by decide, by decide, by decide,
    by decide!,
    (integer_within_bounds ((construct 0).seed 42) 1 6
      (mt19937.seed_wf (construct 0).generator (42 % 2 ^ 32)) (by decide) (by decide)
      (by decide)).1⟩

namespace MersenneTwister

/-- Member `normal()` with a saved variate: the variate is returned and the
generator is not touched. -/
theorem normal_saved (lm : Libm) (fuel : Nat) (s : MersenneTwister)
    (h : s.default_normal_distribution._M_saved_available = true) :
    s.normal lm fuel = some
      (fadd (fmul s.default_normal_distribution._M_saved s.default_normal_distribution.stddev)
          s.default_normal_distribution.mean,
        { s with default_normal_distribution :=
            { s.default_normal_distribution with _M_saved_available := false } }) := by
  unfold normal normal_distribution.call
  simp only [h, if_true]

/-- Member `normal()` without a saved variate, when the first point of the polar
loop is accepted: four generator outputs are taken and a variate is saved. -/
theorem normal_fresh (lm : Libm) (fuel : Nat) (s : MersenneTwister)
    (h : s.default_normal_distribution._M_saved_available = false)
    (hacc : ¬ polarRejects s.generator) :
    ∃ r saved, s.normal lm (fuel + 1) = some (r,
      { s with generator := s.generator.advance 4,
               default_normal_distribution :=
                 { s.default_normal_distribution with _M_saved := saved,
                                                      _M_saved_available := true } }) := by
  unfold normal normal_distribution.call
  simp only [h, polarLoop_accept fuel s.generator hacc]
  exact ⟨_, _, rfl⟩

/-- Member `integer` over the full range of `int` takes one generator output. -/
theorem integer_full (fuel : Nat) (s : MersenneTwister) :
    s.integer (fuel + 1) INT_MIN INT_MAX
      = some (toInt32 ((s.generator.next.1 + toUnsigned 64 INT_MIN) % 2 ^ 64),
          { s with generator := s.generator.next.2 }) := by
  unfold integer
  rw [uniform_int_distribution_full]

end MersenneTwister

/-- C5. For every generator state (and whatever the normal distribution member
holds), `operator()` returns a double `r` with `0 ≤ r ≤ 1`. -/
theorem operatorCall_in_unit_interval (g : mt19937) (nd : normal_distribution) :
    0 ≤ (MersenneTwister.mk g ⟨0, 1⟩ nd).operatorCall.1 ∧
    (MersenneTwister.mk g ⟨0, 1⟩ nd).operatorCall.1 ≤ 1 := by
  unfold operatorCall uniform_real_distribution.call
  dsimp only
  obtain ⟨h0, h1⟩ := generate_canonical_range g
  generalize (generate_canonical g).1 = u at h0 h1
  have hs : fsub 1 0 = 1 := by
    unfold fsub
    rw [sub_zero]
    exact rnd_one
  rw [hs]
  unfold fadd fmul
  rw [mul_one, add_zero]
  exact ⟨rnd_nonneg (rnd_nonneg h0), rnd_le_one (rnd_le_one h1.le)⟩

/-- C6. For every generator state and every double `mean`, whatever
`normal(mean, 0.0)` returns is `mean` exactly; the call returns as soon as the
polar loop of the library draws a point it accepts. -/
theorem normal_zero_stdDev_returns_mean (s : MersenneTwister) (mean : double)
    (hm : isDouble mean) :
    ∀ lm : Libm,
      (∀ fuel r s1, s.normal_mean_stdDev lm fuel mean 0 = some (r, s1) → r = mean) ∧
      (∀ n, (∃ k, k ≤ n ∧ ¬ polarRejects (s.generator.advance (4 * k))) →
        ∃ s1, s.normal_mean_stdDev lm (n + 1) mean 0 = some (mean, s1)) := by
  intro lm
  have key : ∀ v : double, fadd (fmul v 0) mean = mean := by
    intro v
    unfold fadd fmul
    rw [mul_zero, rnd_zero, zero_add]
    exact hm
  have hval : ∀ fuel r s1, s.normal_mean_stdDev lm fuel mean 0 = some (r, s1) → r = mean := by
    intro fuel r s1 h
    unfold normal_mean_stdDev normal_distribution.call normal_distribution.mk0 at h
    simp only [Bool.false_eq_true, if_false] at h
    split at h
    · rename_i r0 d0 g0 h0
      split at h0
      · simp at h0
      · simp only [Option.some.injEq, Prod.mk.injEq] at h0 h
        obtain ⟨rfl, _⟩ := h
        rw [← h0.1]
        exact key _
    · simp at h
  refine ⟨hval, ?_⟩
  intro n hn
  obtain ⟨p, hp⟩ := polarLoop_live n s.generator hn
  have : ∃ r s1, s.normal_mean_stdDev lm (n + 1) mean 0 = some (r, s1) := by
    unfold normal_mean_stdDev normal_distribution.call normal_distribution.mk0
    simp only [Bool.false_eq_true, if_false, hp]
    exact ⟨_, _, rfl⟩
  obtain ⟨r, s1, h⟩ := this
  exact ⟨s1, by rw [h, hval _ _ _ h]⟩

/-- Example for C6: after seed 42, `normal(1.5, 0.0)` returns 1.5. -/
theorem normal_zero_stdDev_returns_mean_witness :
    isDouble (3 / 2) ∧
    ∀ lm : Libm, ∃ s1, ((construct 0).seed 42).normal_mean_stdDev lm 1 (3 / 2) 0 = some (3 / 2, s1) :=
  ⟨by decide!, fun lm =>
    (normal_zero_stdDev_returns_mean ((construct 0).seed 42) (3 / 2) (by decide!) lm).2 0
      ⟨0, le_refl _, by decide!⟩⟩

/-- Counterexample for C4: after seed 42, `operator()` does not leave the
generator where one output would: the position is 2, not 1. -/
theorem operatorCall_one_output_counterexample :
    ¬ (((construct 0).seed 42).operatorCall.2.generator
        = ((construct 0).seed 42).generator.advance 1) :=
  fun h => absurd (congrArg mt19937._M_p h) (by decide!)

/-- C4, as amended. On a valid generator: `operator()` advances the generator by
exactly two 32-bit outputs; `integer(min, max)` with `min ≤ max` by at least one;
`normal()` by none when the distribution member holds a saved variate and
otherwise by four for each iteration of the polar loop (at least four);
`normal(mean, stdDev)` by four for each iteration of the polar loop. -/
theorem sampling_calls_advance (s : MersenneTwister) (hg : s.generator.wf) :
    s.operatorCall.2.generator = s.generator.advance 2 ∧
    (∀ fuel min max r s1, isInt32 min → isInt32 max → min ≤ max →
      s.integer fuel min max = some (r, s1) → ∃ k, 1 ≤ k ∧ s1.generator = s.generator.advance k) ∧
    (∀ lm fuel r s1, s.normal lm fuel = some (r, s1) →
      (s.default_normal_distribution._M_saved_available = true →
        s1.generator = s.generator) ∧
      (s.default_normal_distribution._M_saved_available = false →
        ∃ k, 1 ≤ k ∧ s1.generator = s.generator.advance (4 * k))) ∧
    (∀ lm fuel mean stdDev r s1, s.normal_mean_stdDev lm fuel mean stdDev = some (r, s1) →
      ∃ k, 1 ≤ k ∧ s1.generator = s.generator.advance (4 * k)) := by
  refine ⟨rfl, ?_, ?_, ?_⟩
  · intro fuel min max r s1 hmin hmax h hr
    unfold integer at hr
    split at hr
    · rename_i r0 g0 h0
      simp only [Option.some.injEq, Prod.mk.injEq] at hr
      obtain ⟨_, rfl⟩ := hr
      exact (uniform_int_distribution_spec hmin hmax h fuel _ hg _ _ h0).2.2
    · simp at hr
  · intro lm fuel r s1 hr
    constructor
    · intro hav
      rw [normal_saved lm fuel s hav] at hr
      simp only [Option.some.injEq, Prod.mk.injEq] at hr
      obtain ⟨_, rfl⟩ := hr
      rfl
    · intro hav
      unfold normal normal_distribution.call at hr
      simp only [hav, Bool.false_eq_true, if_false] at hr
      split at hr
      · rename_i r0 d0 g0 h0
        simp only [Option.some.injEq, Prod.mk.injEq] at hr
        obtain ⟨_, rfl⟩ := hr
        split at h0
        · simp at h0
        · rename_i x y r2 g1 hp
          simp only [Option.some.injEq, Prod.mk.injEq] at h0
          obtain ⟨_, _, rfl⟩ := h0
          exact (polarLoop_spec fuel _ _ hp).2
      · simp at hr
  · intro lm fuel mean stdDev r s1 hr
    unfold normal_mean_stdDev normal_distribution.call normal_distribution.mk0 at hr
    simp only [Bool.false_eq_true, if_false] at hr
    split at hr
    · rename_i r0 d0 g0 h0
      simp only [Option.some.injEq, Prod.mk.injEq] at hr
      obtain ⟨_, rfl⟩ := hr
      split at h0
      · simp at h0
      · rename_i x y r2 g1 hp
        simp only [Option.some.injEq, Prod.mk.injEq] at h0
        obtain ⟨_, _, rfl⟩ := h0
        exact (polarLoop_spec fuel _ _ hp).2
    · simp at hr

/-- Example for C4 as amended: after seed 42, `operator()` leaves the generator
where two outputs leave it; its position is then 2. -/
theorem sampling_calls_advance_witness :
    ((construct 0).seed 42).generator.wf ∧
    ((construct 0).seed 42).operatorCall.2.generator
      = ((construct 0).seed 42).generator.advance 2 ∧
    ((construct 0).seed 42).operatorCall.2.generator._M_p = 2 :=
  ⟨mt19937.seed_wf (construct 0).generator (42 % 2 ^ 32),
    (sampling_calls_advance ((construct 0).seed 42)
      (mt19937.seed_wf (construct 0).generator (42 % 2 ^ 32))).1, by decide!⟩

/-- C1 at a failing input. Two instances are constructed alike; on the first,
`normal()` is called once.  Both are then reseeded with 42 and asked for
`normal()` and `integer(INT_MIN, INT_MAX)`.  The first instance answers `normal()`
with the variate saved before the reseed, without touching the generator, so its
`integer` is the first output of the reseeded generator; the second instance
draws four outputs for `normal()`, so its `integer` is the fifth.  The two
integers differ, for every libm. -/
theorem seed_keeps_saved_normal_variate :
    ∀ lm : Libm,
      (((construct 0).normal lm 1).bind fun a =>
        (runCalls lm 1 [.normal, .integer INT_MIN INT_MAX] (a.2.seed 42)).map
          fun r => r.1.getLast?) = some (some (.int (-538846106))) ∧
      ((runCalls lm 1 [.normal, .integer INT_MIN INT_MAX] ((construct 0).seed 42)).map
          fun r => r.1.getLast?) = some (some (.int 996406378)) := by
  intro lm
  have hw1 : toInt32 (((mt19937.seed ⟨[], 0⟩ (42 % 2 ^ 32)).next.1 + toUnsigned 64 INT_MIN) % 2 ^ 64)
      = -538846106 := by decide!
  have hw5 : toInt32 (((((construct 0).seed 42).generator.advance 4).next.1
      + toUnsigned 64 INT_MIN) % 2 ^ 64) = 996406378 := by decide!
  have hacc0 : ¬ polarRejects (construct 0).generator := by decide!
  have hacc42 : ¬ polarRejects ((construct 0).seed 42).generator := by decide!
  constructor
  · obtain ⟨r, saved, h⟩ := normal_fresh lm 0 (construct 0) rfl hacc0
    rw [h]
    simp only [Option.some_bind, runCalls, Call.exec]
    rw [normal_saved lm 1 _ rfl]
    simp only [Option.map_some']
    rw [integer_full 0]
    simp only [Option.map_some', List.getLast?_cons_cons, List.getLast?_singleton]
    exact congrArg (fun i => some (some (Output.int i))) hw1
  · simp only [runCalls, Call.exec]
    obtain ⟨r, saved, h⟩ := normal_fresh lm 0 ((construct 0).seed 42) rfl hacc42
    rw [h]
    simp only [Option.map_some']
    rw [integer_full 0]
    simp only [Option.map_some', List.getLast?_cons_cons, List.getLast?_singleton]
    exact congrArg (fun i => some (some (Output.int i))) hw5

/-! ## Text and `printf` conversions -/

theorem digitChar_isDigit {k : Nat} (h : k < 10) : (Nat.digitChar k).isDigit = true := by
  interval_cases k <;> rfl

theorem toDigitsCore_digits (fuel : Nat) :
    ∀ (n : Nat) (ds : List Char), (∀ c ∈ ds, c.isDigit = true) →
      ∀ c ∈ Nat.toDigitsCore 10 fuel n ds, c.isDigit = true := by
  induction fuel with
  | zero => intro n ds h c hc; exact h c (by simpa [Nat.toDigitsCore] using hc)
  | succ fuel ih =>
    intro n ds h c hc
    have hd : ∀ c ∈ Nat.digitChar (n % 10) :: ds, c.isDigit = true := by
      intro c hc
      rcases List.mem_cons.mp hc with rfl | hc
      · exact digitChar_isDigit (Nat.mod_lt _ (by norm_num))
      · exact h c hc
    unfold Nat.toDigitsCore at hc
    dsimp only at hc
    split at hc
    · exact hd c hc
    · exact ih _ _ hd c hc

theorem toDigitsCore_ne_nil (fuel n : Nat) (ds : List Char) :
    Nat.toDigitsCore 10 (fuel + 1) n ds ≠ [] := by
  induction fuel generalizing n ds with
  | zero =>
    unfold Nat.toDigitsCore
    dsimp only
    split
    · simp
    · simp [Nat.toDigitsCore]
  | succ fuel ih =>
    unfold Nat.toDigitsCore
    dsimp only
    split
    · simp
    · exact ih _ _

/-- Conversion `%lu` gives digits only. -/
theorem fmt_lu_digits (n : Nat) : ∀ c ∈ (fmt_lu n).data, c.isDigit = true := by
  intro c hc
  exact toDigitsCore_digits _ _ [] (by simp) c hc

theorem fmt_lu_ne_nil (n : Nat) : (fmt_lu n).data ≠ [] := toDigitsCore_ne_nil _ _ _

theorem oneLine_of_digits {s : String} (h : ∀ c ∈ s.data, c.isDigit = true) : oneLine s := by
  intro hc
  have := h _ hc
  revert this
  decide

theorem oneLine_append {s t : String} (hs : oneLine s) (ht : oneLine t) : oneLine (s ++ t) := by
  unfold oneLine at *
  rw [String.data_append, List.mem_append]
  exact fun h => h.elim hs ht

theorem fourDigits_digits (k : Nat) : ∀ c ∈ (fourDigits k).data, c.isDigit = true := by
  intro c hc
  unfold fourDigits at hc
  simp only [List.mem_cons, List.mem_singleton, List.not_mem_nil, or_false] at hc
  rcases hc with rfl | rfl | rfl | rfl <;> exact digitChar_isDigit (Nat.mod_lt _ (by norm_num))

/-- The text that `%5.4f` gives before padding. -/
theorem fmt_5_4f_eq (d : double) :
    fmt_5_4f d = (if d < 0 then "-" else "")
      ++ Nat.repr ((roundHalfEven (|d| * 10000)).toNat / 10000) ++ "."
      ++ fourDigits ((roundHalfEven (|d| * 10000)).toNat % 10000) := by
  unfold fmt_5_4f padLeft
  dsimp only
  generalize (roundHalfEven (|d| * 10000)).toNat = m
  have hlen : 5 - ((if d < 0 then "-" else "") ++ Nat.repr (m / 10000) ++ "."
      ++ fourDigits (m % 10000)).length = 0 := by
    have h1 : (fourDigits (m % 10000)).length = 4 := rfl
    have h2 : ("." : String).length = 1 := rfl
    simp only [String.length_append, h1, h2]
    omega
  rw [hlen]
  apply String.ext
  simp

/-- Conversion `%5.4f` gives fixed-point text with exactly four decimals. -/
theorem fmt_5_4f_isFixed4 (d : double) : isFixed4 (fmt_5_4f d) := by
  rw [fmt_5_4f_eq]
  refine ⟨decide (d < 0), (Nat.repr ((roundHalfEven (|d| * 10000)).toNat / 10000)).data,
    (fourDigits ((roundHalfEven (|d| * 10000)).toNat % 10000)).data, ?_, ?_, ?_, rfl, ?_⟩
  · apply String.ext
    by_cases h : d < 0 <;> simp [h]
  · exact fmt_lu_ne_nil _
  · exact fmt_lu_digits _
  · exact fourDigits_digits _

/-- Conversion `%5.4f` gives no newline. -/
theorem fmt_5_4f_oneLine (d : double) : oneLine (fmt_5_4f d) := by
  rw [fmt_5_4f_eq]
  refine oneLine_append (oneLine_append (oneLine_append ?_ ?_) ?_) ?_
  · split <;> decide
  · exact oneLine_of_digits (fmt_lu_digits _)
  · decide
  · exact oneLine_of_digits (fourDigits_digits _)

theorem linesAux_line (l : List Char) (hl : '\n' ∉ l) :
    ∀ (cur rest : List Char),
      linesAux cur (l ++ '\n' :: rest) = String.mk (cur.reverse ++ l) :: linesAux [] rest := by
  induction l with
  | nil => intro cur rest; simp [linesAux]
  | cons c l ih =>
    intro cur rest
    have hc : c ≠ '\n' := fun h => hl (by simp [h])
    have hl' : '\n' ∉ l := fun h => hl (List.mem_cons_of_mem _ h)
    rw [List.cons_append]
    conv_lhs => unfold linesAux
    rw [if_neg hc, ih hl']
    simp

/-- The lines of a text made of lines are those lines. -/
theorem textLines_joinLines (ls : List String) (h : ∀ l ∈ ls, oneLine l) :
    textLines (joinLines ls) = ls := by
  induction ls with
  | nil => rfl
  | cons l ls ih =>
    have h1 : oneLine l := h l (List.mem_cons_self _ _)
    have h2 : ∀ l ∈ ls, oneLine l := fun x hx => h x (List.mem_cons_of_mem _ hx)
    unfold textLines at *
    unfold joinLines
    have : (l ++ "\n" ++ joinLines ls).data = l.data ++ '\n' :: (joinLines ls).data := by
      simp [String.data_append]
    rw [this, linesAux_line _ h1, ih h2]
    simp

/-! ## stdio -/

theorem FileSystem.updatedAt.trans {fs fs1 fs2 : FileSystem} {path a b : String}
    (h1 : fs.updatedAt fs1 path a) (h2 : fs1.updatedAt fs2 path b) : fs.updatedAt fs2 path b :=
  ⟨h2.1, fun p hp => (h2.2.1 p hp).trans (h1.2.1 p hp), h2.2.2.trans h1.2.2⟩

theorem fopen_ok (fs : FileSystem) (path mode : String) (h : fs.openable path = true) :
    (fopen fs path mode).1 = some path ∧
    fs.updatedAt (fopen fs path mode).2 path
      (if mode = "w" then "" else (fs.content path).getD "") := by
  unfold fopen
  rw [if_pos h]
  refine ⟨rfl, ?_, ?_, rfl⟩
  · dsimp only
    rw [if_pos rfl]
    split <;> rfl
  · intro p hp
    dsimp only
    rw [if_neg hp]

theorem fopen_fail (fs : FileSystem) (path mode : String) (h : fs.openable path = false) :
    fopen fs path mode = (none, fs) := by
  unfold fopen
  simp [h]

theorem fprintf_ok (fs : FileSystem) (path text old : String) (h : fs.content path = some old) :
    ∃ fs1, fprintf fs (some path) text = .ok fs1 ∧ fs.updatedAt fs1 path (old ++ text) := by
  refine ⟨_, rfl, ?_, ?_, rfl⟩
  · dsimp only
    rw [if_pos rfl, h]
    rfl
  · intro p hp
    dsimp only
    rw [if_neg hp]

theorem fprintfs_ok (path : String) (ts : List String) :
    ∀ (fs : FileSystem) (old : String), fs.content path = some old →
      ∃ fs1, fprintfs (some path) ts fs = .ok fs1 ∧ fs.updatedAt fs1 path (old ++ concatTexts ts) := by
  induction ts with
  | nil =>
    intro fs old h
    exact ⟨fs, rfl, by simpa [concatTexts] using h, fun _ _ => rfl, rfl⟩
  | cons t ts ih =>
    intro fs old h
    obtain ⟨fs1, h1, u1⟩ := fprintf_ok fs path t old h
    obtain ⟨fs2, h2, u2⟩ := ih fs1 (old ++ t) u1.1
    refine ⟨fs2, ?_, ?_⟩
    · unfold fprintfs
      rw [h1]
      exact h2
    · have := u1.trans u2
      rw [String.append_assoc] at this
      exact this

theorem vectorAt_ok (v : List double) (i : Nat) (h : i < v.length) :
    vectorAt v i = .ok (v.getD i 0) := by
  unfold vectorAt
  rw [List.getD_eq_getElem?_getD, List.getElem?_eq_getElem h]
  rfl

/-! ## `appendXyzTrajectory` -/

/-- One pass of the loop body on a particle whose position is long enough. -/
theorem writeParticles_step (dimension : Nat) (path : String) (particles : List Particle)
    (fuel i : Nat) (fs : FileSystem) (h : i < particles.length)
    (hp : dimension ≤ particles[i].position.length) (hdim : dimension = 2 ∨ dimension = 3) :
    writeParticles dimension (some path) particles (fuel + 1) i fs
      = match fprintf fs (some path) (particleLine dimension particles[i] ++ "\n") with
        | .error e => some (.error e)
        | .ok fs1 => writeParticles dimension (some path) particles fuel ((i + 1) % 2 ^ 32) fs1 := by
  have h0 := vectorAt_ok particles[i].position 0 (by omega)
  have h1 := vectorAt_ok particles[i].position 1 (by omega)
  have h2 : (if dimension = 3 then vectorAt particles[i].position 2 else .ok 0)
      = .ok (if dimension = 3 then particles[i].position.getD 2 0 else 0) := by
    by_cases hd : dimension = 3
    · rw [if_pos hd, if_pos hd]
      exact vectorAt_ok particles[i].position 2 (by omega)
    · rw [if_neg hd, if_neg hd]
  rw [writeParticles, dif_pos h, h0, h1, h2]
  rfl

/-- The loop from counter `i` on, for fewer than `2^32` particles: it ends within
`particles.length - i + 1` tests of its condition, having written the lines of
the particles from index `i` on. -/
theorem writeParticles_ok (dimension : Nat) (path : String) (hdim : dimension = 2 ∨ dimension = 3)
    (particles : List Particle) (hN : particles.length < 2 ^ 32)
    (hpos : ∀ p ∈ particles, dimension ≤ p.position.length) :
    ∀ (n i fuel : Nat) (fs : FileSystem) (old : String), i + n = particles.length → n < fuel →
      fs.content path = some old →
      ∃ fs1, writeParticles dimension (some path) particles fuel i fs = some (.ok fs1) ∧
        fs.updatedAt fs1 path (old ++ joinLines ((particles.drop i).map (particleLine dimension))) := by
  intro n
  induction n with
  | zero =>
    intro i fuel fs old hi hfuel h
    obtain ⟨f, rfl⟩ : ∃ f, fuel = f + 1 := ⟨fuel - 1, by omega⟩
    refine ⟨fs, ?_, ?_, fun _ _ => rfl, rfl⟩
    · rw [writeParticles, dif_neg (by omega)]
    · rw [List.drop_of_length_le (by omega)]
      simpa [joinLines] using h
  | succ n ih =>
    intro i fuel fs old hi hfuel h
    obtain ⟨f, rfl⟩ : ∃ f, fuel = f + 1 := ⟨fuel - 1, by omega⟩
    have hlt : i < particles.length := by omega
    have hp : dimension ≤ particles[i].position.length := hpos _ (List.getElem_mem hlt)
    obtain ⟨fs1, hf, u1⟩ := fprintf_ok fs path (particleLine dimension particles[i] ++ "\n") old h
    have hmod : (i + 1) % 2 ^ 32 = i + 1 := Nat.mod_eq_of_lt (by omega)
    obtain ⟨fs2, hw, u2⟩ := ih (i + 1) f fs1 _ (by omega) (by omega) u1.1
    refine ⟨fs2, ?_, ?_⟩
    · rw [writeParticles_step dimension path particles f i fs hlt hp hdim, hf, hmod]
      exact hw
    · have := u1.trans u2
      rw [String.append_assoc] at this
      rw [List.drop_eq_getElem_cons hlt]
      exact this

/-- The loop for `2^32` particles or more: the counter never reaches
`particles.size()`, and the loop does not end normally. -/
theorem writeParticles_wraps (dimension : Nat) (pFile : FILE) (particles : List Particle)
    (hN : 2 ^ 32 ≤ particles.length) :
    ∀ (fuel i : Nat) (fs fs1 : FileSystem), i < 2 ^ 32 →
      writeParticles dimension pFile particles fuel i fs ≠ some (.ok fs1) := by
  intro fuel
  induction fuel with
  | zero =>
    intro i fs fs1 _
    simp [writeParticles]
  | succ fuel ih =>
    intro i fs fs1 hi
    have hlt : i < particles.length := by omega
    rw [writeParticles, dif_pos hlt]
    split
    · split
      · simp
      · exact ih _ _ _ (Nat.mod_lt _ (by norm_num))
    · simp

/-- With the file openable, fewer than `2^32` particles and every position long
enough, the function completes, and the file holds the frame after what the mode
left of its earlier content; nothing else changes. -/
theorem appendXyzTrajectory_ok (fuel dimension : Nat) (particles : List Particle)
    (clearFile : Bool) (fs : FileSystem) (hdim : dimension = 2 ∨ dimension = 3)
    (hN : particles.length < 2 ^ 32) (hfuel : particles.length < fuel)
    (hpos : ∀ p ∈ particles, dimension ≤ p.position.length)
    (hopen : fs.openable "trajectory.xyz" = true) :
    ∃ fs1, appendXyzTrajectory fuel dimension particles clearFile fs = some (.ok fs1) ∧
      fs.updatedAt fs1 "trajectory.xyz"
        ((if clearFile then "" else (fs.content "trajectory.xyz").getD "")
          ++ xyzFrame dimension particles) := by
  -- the state after the optional wipe
  have hwipe : ∃ fs0, (if clearFile then
        fclose (fopen fs "trajectory.xyz" "w").2 (fopen fs "trajectory.xyz" "w").1 else .ok fs)
        = .ok fs0 ∧ fs0.openable = fs.openable ∧
        (∀ p, p ≠ "trajectory.xyz" → fs0.content p = fs.content p) ∧
        (fs0.content "trajectory.xyz").getD ""
          = (if clearFile then "" else (fs.content "trajectory.xyz").getD "") := by
    cases clearFile with
    | false => exact ⟨fs, rfl, rfl, fun _ _ => rfl, rfl⟩
    | true =>
      obtain ⟨ho, hu⟩ := fopen_ok fs "trajectory.xyz" "w" hopen
      refine ⟨(fopen fs "trajectory.xyz" "w").2, ?_, hu.2.2, hu.2.1, ?_⟩
      · rw [if_pos rfl, ho]
        rfl
      · rw [hu.1]
        rfl
  obtain ⟨fs0, hw, hopen0, hother0, hold⟩ := hwipe
  obtain ⟨ho, hu⟩ := fopen_ok fs0 "trajectory.xyz" "a" (hopen0 ▸ hopen)
  rw [if_neg (by decide)] at hu
  obtain ⟨fs2, hf, u2⟩ := fprintf_ok _ "trajectory.xyz" (fmt_lu particles.length ++ "\n\n") _ hu.1
  obtain ⟨fs3, hp, u3⟩ := writeParticles_ok dimension "trajectory.xyz" hdim particles hN hpos
    particles.length 0 fuel fs2 _ (by omega) hfuel u2.1
  rw [List.drop_zero] at u3
  refine ⟨fs3, ?_, ?_⟩
  · unfold appendXyzTrajectory
    rw [hw]
    dsimp only
    rw [ho, hf]
    dsimp only
    rw [hp]
    rfl
  · have hall := (hu.trans u2).trans u3
    refine ⟨?_, fun p hp => (hall.2.1 p hp).trans (hother0 p hp), hall.2.2.trans hopen0⟩
    rw [hall.1, hold]
    congr 1
    have hj : xyzFrame dimension particles
        = fmt_lu particles.length ++ "\n" ++ ("" ++ "\n"
            ++ joinLines (particles.map (particleLine dimension))) := rfl
    rw [hj]
    apply String.ext
    simp [String.data_append]

/-- For `2^32` particles or more the function does not return normally: the loop
counter wraps before it reaches `particles.size()`. -/
theorem appendXyzTrajectory_wraps (fuel dimension : Nat) (particles : List Particle)
    (clearFile : Bool) (fs fs1 : FileSystem) (hN : 2 ^ 32 ≤ particles.length) :
    appendXyzTrajectory fuel dimension particles clearFile fs ≠ some (.ok fs1) := by
  unfold appendXyzTrajectory
  split
  · simp
  · dsimp only
    split
    · simp
    · split
      · simp
      · simp
      · rename_i h
        exact absurd h (writeParticles_wraps dimension _ particles hN fuel 0 _ _ (by norm_num))

theorem particleLine_oneLine (dimension : Nat) (p : Particle) :
    oneLine (particleLine dimension p) := by
  unfold particleLine
  refine oneLine_append (oneLine_append (oneLine_append (oneLine_append (oneLine_append ?_ ?_)
    ?_) ?_) ?_) ?_
  · decide
  · exact fmt_5_4f_oneLine _
  · decide
  · exact fmt_5_4f_oneLine _
  · decide
  · exact fmt_5_4f_oneLine _

/-- C7. For dimension 2 or 3 and `N` particles (`N` below `2^32`, the range of
the loop counter) whose positions have at least `dimension` components, the file
being openable: `appendXyzTrajectory` returns, `position[2]` is not read in
dimension 2, and what the call appends to the file is the frame of the spec: its
lines are the decimal count `N`, an empty line, and then, in particle order, one
line `0 <x> <y> <z>` per particle, `N + 2` lines in all; `x`, `y` are
`position[0]`, `position[1]`, `z` is `position[2]` for dimension 3 and 0 for
dimension 2, each printed in fixed-point form with four decimals. -/
theorem appendXyzTrajectory_writes_frame (dimension : Nat) (particles : List Particle)
    (clearFile : Bool) (fs : FileSystem) (hdim : dimension = 2 ∨ dimension = 3)
    (hN : particles.length < 2 ^ 32)
    (hpos : ∀ p ∈ particles, dimension ≤ p.position.length)
    (hopen : fs.openable "trajectory.xyz" = true) :
    (∀ fuel, particles.length < fuel → ∃ fs1 before,
      appendXyzTrajectory fuel dimension particles clearFile fs = some (.ok fs1) ∧
      fs1.content "trajectory.xyz" = some (before ++ xyzFrame dimension particles)) ∧
    textLines (xyzFrame dimension particles)
      = fmt_lu particles.length :: "" :: particles.map (particleLine dimension) ∧
    (textLines (xyzFrame dimension particles)).length = particles.length + 2 ∧
    (∀ p ∈ particles, ∃ x y z,
      particleLine dimension p = "0 " ++ x ++ " " ++ y ++ " " ++ z ∧
      x = fmt_5_4f (p.position.getD 0 0) ∧ y = fmt_5_4f (p.position.getD 1 0) ∧
      z = fmt_5_4f (if dimension = 3 then p.position.getD 2 0 else 0) ∧
      isFixed4 x ∧ isFixed4 y ∧ isFixed4 z) := by
  have hlines : textLines (xyzFrame dimension particles)
      = fmt_lu particles.length :: "" :: particles.map (particleLine dimension) := by
    apply textLines_joinLines
    intro l hl
    rcases List.mem_cons.mp hl with rfl | hl
    · exact oneLine_of_digits (fmt_lu_digits _)
    · rcases List.mem_cons.mp hl with rfl | hl
      · decide
      · obtain ⟨p, _, rfl⟩ := List.mem_map.mp hl
        exact particleLine_oneLine dimension p
  refine ⟨?_, hlines, ?_, ?_⟩
  · intro fuel hfuel
    obtain ⟨fs1, h1, u⟩ :=
      appendXyzTrajectory_ok fuel dimension particles clearFile fs hdim hN hfuel hpos hopen
    exact ⟨fs1, _, h1, u.1⟩
  · rw [hlines]
    simp
  · intro p _
    exact ⟨_, _, _, rfl, rfl, rfl, rfl, fmt_5_4f_isFixed4 _, fmt_5_4f_isFixed4 _,
      fmt_5_4f_isFixed4 _⟩

/-- Example for C7: two particles in dimension 2, with positions of two
components only; the call returns and the frame it appends has four lines. -/
theorem appendXyzTrajectory_writes_frame_witness :
    ((2 : Nat) = 2 ∨ (2 : Nat) = 3) ∧
    [Particle.mk [1, 2], Particle.mk [1 / 3, -5 / 2]].length < 2 ^ 32 ∧
    (∀ p ∈ [Particle.mk [1, 2], Particle.mk [1 / 3, -5 / 2]], 2 ≤ p.position.length) ∧
    xyzFrame 2 [Particle.mk [1, 2], Particle.mk [1 / 3, -5 / 2]]
      = "2\n\n0 1.0000 2.0000 0.0000\n0 0.3333 -2.5000 0.0000\n" ∧
    ∃ fs1 before,
      appendXyzTrajectory 3 2 [Particle.mk [1, 2], Particle.mk [1 / 3, -5 / 2]] true
        ⟨fun _ => none, fun _ => true⟩ = some (.ok fs1) ∧
      fs1.content "trajectory.xyz"
        = some (before ++ xyzFrame 2 [Particle.mk [1, 2], Particle.mk [1 / 3, -5 / 2]]) :=
  ⟨by decide, by decide, by decide, by decide!,
    (appendXyzTrajectory_writes_frame 2 [Particle.mk [1, 2], Particle.mk [1 / 3, -5 / 2]] true
      ⟨fun _ => none, fun _ => true⟩ (by decide) (by decide) (by decide) rfl).1 3 (by decide)⟩

/-- The frames of successive calls, each appended to the file. -/
theorem appendXyzTrajectories_ok (fuel : Nat) (calls : List (Nat × List Particle)) :
    ∀ (fs : FileSystem) (old : String),
      (∀ c ∈ calls, (c.1 = 2 ∨ c.1 = 3) ∧ c.2.length < 2 ^ 32 ∧ c.2.length < fuel ∧
        ∀ p ∈ c.2, c.1 ≤ p.position.length) →
      fs.openable "trajectory.xyz" = true → (fs.content "trajectory.xyz").getD "" = old →
      ∃ fs1, appendXyzTrajectories fuel (calls.map fun c => (c.1, c.2, false)) fs
          = some (.ok fs1) ∧
        (fs1.content "trajectory.xyz").getD ""
          = old ++ concatTexts (calls.map fun c => xyzFrame c.1 c.2) ∧
        (∀ p, p ≠ "trajectory.xyz" → fs1.content p = fs.content p) := by
  induction calls with
  | nil =>
    intro fs old _ _ hold
    exact ⟨fs, rfl, by simpa [concatTexts] using hold, fun _ _ => rfl⟩
  | cons c calls ih =>
    intro fs old hc hopen hold
    obtain ⟨hd, hN, hfuel, hp⟩ := hc c (List.mem_cons_self _ _)
    obtain ⟨fs1, h1, u1⟩ := appendXyzTrajectory_ok fuel c.1 c.2 false fs hd hN hfuel hp hopen
    obtain ⟨fs2, h2, hcont, hoth⟩ := ih fs1 (old ++ xyzFrame c.1 c.2)
      (fun d hd => hc d (List.mem_cons_of_mem _ hd)) (u1.2.2 ▸ hopen)
      (by rw [u1.1, hold]; rfl)
    refine ⟨fs2, ?_, ?_, fun p hp => (hoth p hp).trans (u1.2.1 p hp)⟩
    · simp only [List.map_cons, appendXyzTrajectories]
      rw [h1]
      exact h2
    · rw [hcont, List.map_cons, concatTexts, String.append_assoc]

/-- C8. With `trajectory.xyz` as explicit state (openable; each call with fewer
than `2^32` particles, their positions long enough): after one call the file
holds the new frame alone when `clearFile` is true, and its previous content
followed by the new frame when `clearFile` is false, no other file being
changed; hence a call with `clearFile` true followed by `k` calls with
`clearFile` false leaves exactly the `k + 1` frames, in call order. -/
theorem trajectory_file_after_calls (fs : FileSystem)
    (hopen : fs.openable "trajectory.xyz" = true) :
    (∀ fuel dimension particles clearFile, (dimension = 2 ∨ dimension = 3) →
      particles.length < 2 ^ 32 → particles.length < fuel →
      (∀ p ∈ particles, dimension ≤ p.position.length) →
      ∃ fs1, appendXyzTrajectory fuel dimension particles clearFile fs = some (.ok fs1) ∧
        fs1.content "trajectory.xyz"
          = some ((if clearFile then "" else (fs.content "trajectory.xyz").getD "")
              ++ xyzFrame dimension particles) ∧
        (∀ p, p ≠ "trajectory.xyz" → fs1.content p = fs.content p)) ∧
    (∀ (fuel : Nat) (first : Nat × List Particle) (rest : List (Nat × List Particle)),
      (∀ c ∈ first :: rest, (c.1 = 2 ∨ c.1 = 3) ∧ c.2.length < 2 ^ 32 ∧ c.2.length < fuel ∧
        ∀ p ∈ c.2, c.1 ≤ p.position.length) →
      ∃ fs1, appendXyzTrajectories fuel
          ((first.1, first.2, true) :: rest.map fun c => (c.1, c.2, false)) fs = some (.ok fs1) ∧
        (fs1.content "trajectory.xyz").getD ""
          = concatTexts ((first :: rest).map fun c => xyzFrame c.1 c.2) ∧
        ((first :: rest).map fun c => xyzFrame c.1 c.2).length = rest.length + 1) := by
  constructor
  · intro fuel dimension particles clearFile hdim hN hfuel hpos
    obtain ⟨fs1, h1, u⟩ :=
      appendXyzTrajectory_ok fuel dimension particles clearFile fs hdim hN hfuel hpos hopen
    exact ⟨fs1, h1, u.1, u.2.1⟩
  · intro fuel first rest hc
    obtain ⟨hd, hN, hfuel, hp⟩ := hc first (List.mem_cons_self _ _)
    obtain ⟨fs1, h1, u1⟩ := appendXyzTrajectory_ok fuel first.1 first.2 true fs hd hN hfuel hp hopen
    obtain ⟨fs2, h2, hcont, _⟩ := appendXyzTrajectories_ok fuel rest fs1 (xyzFrame first.1 first.2)
      (fun d hd => hc d (List.mem_cons_of_mem _ hd)) (u1.2.2 ▸ hopen)
      (by rw [u1.1]; simp)
    refine ⟨fs2, ?_, ?_, by simp⟩
    · simp only [appendXyzTrajectories]
      rw [h1]
      exact h2
    · rw [hcont, List.map_cons, concatTexts]

/-- Example for C8: a wiping call and an appending call on a file that held
other text leave the two frames. -/
theorem trajectory_file_after_calls_witness :
    (⟨fun p => if p = "trajectory.xyz" then some "old\n" else none, fun _ => true⟩ :
      FileSystem).openable "trajectory.xyz" = true ∧
    ∃ fs1, appendXyzTrajectories 2
        [(2, [Particle.mk [1, 2]], true), (3, [Particle.mk [1, 2, 3]], false)]
        ⟨fun p => if p = "trajectory.xyz" then some "old\n" else none, fun _ => true⟩
          = some (.ok fs1) ∧
      (fs1.content "trajectory.xyz").getD ""
        = concatTexts [xyzFrame 2 [Particle.mk [1, 2]], xyzFrame 3 [Particle.mk [1, 2, 3]]] :=
  ⟨rfl,
    ((trajectory_file_after_calls
      ⟨fun p => if p = "trajectory.xyz" then some "old\n" else none, fun _ => true⟩ rfl).2
      2 (2, [Particle.mk [1, 2]]) [(3, [Particle.mk [1, 2, 3]])] (by decide)).imp
      fun _ h => ⟨h.1, h.2.1⟩⟩

/-- Counterexample for C9: with no file openable, `appendXyzTrajectory` hands the
null handle to `fprintf` (to `fclose` when `clearFile` is set) and `vmdScript`
hands it to `fprintf`: undefined behaviour, not a failure reported to the
caller. -/
theorem fopen_failure_counterexample :
    appendXyzTrajectory 1 3 [] false ⟨fun _ => none, fun _ => false⟩
      = some (.error (.nullStream "fprintf")) ∧
    appendXyzTrajectory 1 3 [] true ⟨fun _ => none, fun _ => false⟩
      = some (.error (.nullStream "fclose")) ∧
    vmdScript [1, 1, 1] ⟨fun _ => none, fun _ => false⟩ = .error (.nullStream "fprintf") :=
  ⟨rfl, rfl, rfl⟩

/-- C9, as amended. When the target file cannot be opened, neither function
checks the result of `fopen` or reports anything: `appendXyzTrajectory` passes the
null handle to `fclose` when `clearFile` is set and to `fprintf` otherwise,
`vmdScript` passes it to its first `fprintf`; the behaviour is undefined from
there. -/
theorem fopen_failure_not_checked (fs : FileSystem) :
    (fs.openable "trajectory.xyz" = false → ∀ fuel dimension particles clearFile,
      appendXyzTrajectory fuel dimension particles clearFile fs
        = some (.error (.nullStream (if clearFile then "fclose" else "fprintf")))) ∧
    (fs.openable "vmd.tcl" = false → ∀ boxSize,
      vmdScript boxSize fs = .error (.nullStream "fprintf")) := by
  constructor
  · intro h fuel dimension particles clearFile
    unfold appendXyzTrajectory
    rw [fopen_fail fs _ _ h]
    cases clearFile with
    | true => rfl
    | false =>
      simp only [Bool.false_eq_true, if_false]
      rw [fopen_fail fs _ _ h]
      rfl
  · intro h boxSize
    unfold vmdScript
    rw [fopen_fail fs _ _ h]
    rfl

/-- Example for C9 as amended: with no file openable, a wiping call hands the
null handle to `fclose` and `vmdScript` hands it to `fprintf`. -/
theorem fopen_failure_not_checked_witness :
    (⟨fun _ => none, fun _ => false⟩ : FileSystem).openable "trajectory.xyz" = false ∧
    appendXyzTrajectory 2 2 [Particle.mk [1, 2]] true ⟨fun _ => none, fun _ => false⟩
      = some (.error (.nullStream "fclose")) ∧
    vmdScript [1, 2] ⟨fun _ => none, fun _ => false⟩ = .error (.nullStream "fprintf") :=
  ⟨rfl,
    (fopen_failure_not_checked ⟨fun _ => none, fun _ => false⟩).1 rfl 2 2 [Particle.mk [1, 2]] true,
    (fopen_failure_not_checked ⟨fun _ => none, fun _ => false⟩).2 rfl [1, 2]⟩

/-! ## `vmdScript` -/

theorem joinLines_append (a b : List String) : joinLines (a ++ b) = joinLines a ++ joinLines b := by
  induction a with
  | nil => simp [joinLines]
  | cons l a ih =>
    show l ++ "\n" ++ joinLines (a ++ b) = (l ++ "\n" ++ joinLines a) ++ joinLines b
    rw [ih]
    simp only [String.append_assoc]

theorem concatTexts_lines (ls : List String) :
    concatTexts (ls.map fun l => l ++ "\n") = joinLines ls := by
  induction ls with
  | nil => rfl
  | cons l ls ih => simp only [List.map_cons, concatTexts, joinLines, ih]

/-- With `vmd.tcl` openable and a box size of length 2 or 3, `vmdScript` returns
and the file holds exactly the lines `vmdScriptLines`. -/
theorem vmdScript_ok (boxSize : List double) (fs : FileSystem)
    (hlen : boxSize.length = 2 ∨ boxSize.length = 3) (hopen : fs.openable "vmd.tcl" = true) :
    ∃ fs1, vmdScript boxSize fs = .ok fs1 ∧
      fs.updatedAt fs1 "vmd.tcl" (joinLines (vmdScriptLines boxSize)) := by
  obtain ⟨ho, hu⟩ := fopen_ok fs "vmd.tcl" "w" hopen
  rw [if_pos rfl] at hu
  have hv0 := vectorAt_ok boxSize 0 (by omega)
  have hv1 := vectorAt_ok boxSize 1 (by omega)
  obtain ⟨fs1, h1, u1⟩ := fprintfs_ok "vmd.tcl"
    (["light 0 on", "light 1 on", "light 2 off", "light 3 off", "axes location off",
      "stage location off", "display projection orthographic", "mol modstyle 0 0 VDW 1 30",
      "set sel [atomselect top \"name X\"]", "atomselect0 set radius 0.4", "color Name X blue",
      "display depthcue off", "set minx 0"].map fun l => l ++ "\n") _ "" hu.1
  obtain ⟨fs2, h2, u2⟩ := fprintfs_ok "vmd.tcl"
    (["set maxx " ++ fmt_5_4f (boxSize.getD 0 0), "set miny 0"].map fun l => l ++ "\n") fs1 _ u1.1
  obtain ⟨fs3, h3, u3⟩ := fprintfs_ok "vmd.tcl"
    (["set maxy " ++ fmt_5_4f (boxSize.getD 1 0)].map fun l => l ++ "\n") fs2 _ u2.1
  obtain ⟨fs5, h5, u5⟩ : ∃ fs5, (if boxSize.length = 3 then
        match fprintfs (some "vmd.tcl") ["set minz 0\n"] fs3, vectorAt boxSize 2 with
        | .ok fs4, .ok b2 => fprintfs (some "vmd.tcl") ["set maxz " ++ fmt_5_4f b2 ++ "\n"] fs4
        | .error e, _ => .error e
        | _, .error e => .error e
      else fprintfs (some "vmd.tcl") ["set minz 0\n", "set maxz 0\n"] fs3) = .ok fs5 ∧
      fs3.updatedAt fs5 "vmd.tcl" ("" ++ concatTexts (["light 0 on", "light 1 on", "light 2 off",
        "light 3 off", "axes location off", "stage location off",
        "display projection orthographic", "mol modstyle 0 0 VDW 1 30",
        "set sel [atomselect top \"name X\"]", "atomselect0 set radius 0.4", "color Name X blue",
        "display depthcue off", "set minx 0"].map fun l => l ++ "\n")
        ++ concatTexts (["set maxx " ++ fmt_5_4f (boxSize.getD 0 0), "set miny 0"].map
            fun l => l ++ "\n")
        ++ concatTexts (["set maxy " ++ fmt_5_4f (boxSize.getD 1 0)].map fun l => l ++ "\n")
        ++ concatTexts (["set minz 0", "set maxz " ++
            (if boxSize.length = 3 then fmt_5_4f (boxSize.getD 2 0) else "0")].map
            fun l => l ++ "\n")) := by
    by_cases h3len : boxSize.length = 3
    · obtain ⟨fs4, h4, u4⟩ := fprintfs_ok "vmd.tcl" (["set minz 0"].map fun l => l ++ "\n") fs3 _ u3.1
      obtain ⟨fs5, h5, u5⟩ := fprintfs_ok "vmd.tcl"
        (["set maxz " ++ fmt_5_4f (boxSize.getD 2 0)].map fun l => l ++ "\n") fs4 _ u4.1
      have hv2 := vectorAt_ok boxSize 2 (by omega)
      refine ⟨fs5, ?_, ?_⟩
      · rw [if_pos h3len, hv2]
        simp only [List.map_cons, List.map_nil] at h4 h5
        have e1 : ("set minz 0" ++ "\n" : String) = "set minz 0\n" := by decide
        rw [e1] at h4
        rw [h4]
        exact h5
      · have := u4.trans u5
        rw [if_pos h3len]
        simp only [List.map_cons, List.map_nil, concatTexts, String.append_assoc] at this ⊢
        exact this
    · obtain ⟨fs5, h5, u5⟩ := fprintfs_ok "vmd.tcl"
        (["set minz 0", "set maxz 0"].map fun l => l ++ "\n") fs3 _ u3.1
      refine ⟨fs5, ?_, ?_⟩
      · rw [if_neg h3len]
        exact h5
      · rw [if_neg h3len]
        simp only [List.map_cons, List.map_nil, concatTexts, String.append_assoc] at u5 ⊢
        exact u5
  obtain ⟨fs6, h6, u6⟩ := fprintfs_ok "vmd.tcl"
    (["draw materials off", "draw color white",
       "draw line \"$minx $miny $minz\" \"$maxx $miny $minz\"",
       "draw line \"$minx $miny $minz\" \"$minx $maxy $minz\"",
       "draw line \"$minx $miny $minz\" \"$minx $miny $maxz\"",
       "draw line \"$maxx $miny $minz\" \"$maxx $maxy $minz\"",
       "draw line \"$maxx $miny $minz\" \"$maxx $miny $maxz\"",
       "draw line \"$minx $maxy $minz\" \"$maxx $maxy $minz\"",
       "draw line \"$minx $maxy $minz\" \"$minx $maxy $maxz\"",
       "draw line \"$minx $miny $maxz\" \"$maxx $miny $maxz\"",
       "draw line \"$minx $miny $maxz\" \"$minx $maxy $maxz\"",
       "draw line \"$maxx $maxy $maxz\" \"$maxx $maxy $minz\"",
       "draw line \"$maxx $maxy $maxz\" \"$minx $maxy $maxz\"",
       "draw line \"$maxx $maxy $maxz\" \"$maxx $miny $maxz\""].map fun l => l ++ "\n") fs5 _ u5.1
  obtain ⟨fs7, h7, u7⟩ : ∃ fs7, (if boxSize.length = 3 then
        fprintfs (some "vmd.tcl") ["rotate x by -60\n", "rotate y by -30\n", "rotate z by -15\n"] fs6
      else .ok fs6) = .ok fs7 ∧
      fs6.updatedAt fs7 "vmd.tcl" ((fs6.content "vmd.tcl").getD "" ++ concatTexts
        ((if boxSize.length = 3 then ["rotate x by -60", "rotate y by -30", "rotate z by -15"]
          else []).map fun l => l ++ "\n")) := by
    by_cases h3len : boxSize.length = 3
    · obtain ⟨fs7, h7, u7⟩ := fprintfs_ok "vmd.tcl"
        (["rotate x by -60", "rotate y by -30", "rotate z by -15"].map fun l => l ++ "\n")
        fs6 _ u6.1
      refine ⟨fs7, ?_, ?_⟩
      · rw [if_pos h3len]
        exact h7
      · rw [if_pos h3len, u6.1]
        exact u7
    · refine ⟨fs6, ?_, ?_⟩
      · rw [if_neg h3len]
      · rw [if_neg h3len, u6.1]
        exact ⟨by simp [concatTexts, u6.1], fun _ _ => rfl, rfl⟩
  refine ⟨fs7, ?_, ?_⟩
  · unfold vmdScript
    simp only [ho]
    have e1 : fprintfs (some "vmd.tcl")
        ["light 0 on\n", "light 1 on\n", "light 2 off\n", "light 3 off\n", "axes location off\n",
          "stage location off\n", "display projection orthographic\n",
          "mol modstyle 0 0 VDW 1 30\n", "set sel [atomselect top \"name X\"]\n",
          "atomselect0 set radius 0.4\n", "color Name X blue\n", "display depthcue off\n",
          "set minx 0\n"] (fopen fs "vmd.tcl" "w").2 = .ok fs1 := h1
    rw [e1]
    simp only [hv0]
    have e2 : fprintfs (some "vmd.tcl")
        ["set maxx " ++ fmt_5_4f (boxSize.getD 0 0) ++ "\n", "set miny 0\n"] fs1 = .ok fs2 := h2
    rw [e2]
    simp only [hv1]
    have e3 : fprintfs (some "vmd.tcl") ["set maxy " ++ fmt_5_4f (boxSize.getD 1 0) ++ "\n"] fs2
        = .ok fs3 := h3
    rw [e3]
    simp only [h5]
    have e6 : fprintfs (some "vmd.tcl")
        ["draw materials off\n", "draw color white\n",
          "draw line \"$minx $miny $minz\" \"$maxx $miny $minz\"\n",
          "draw line \"$minx $miny $minz\" \"$minx $maxy $minz\"\n",
          "draw line \"$minx $miny $minz\" \"$minx $miny $maxz\"\n",
          "draw line \"$maxx $miny $minz\" \"$maxx $maxy $minz\"\n",
          "draw line \"$maxx $miny $minz\" \"$maxx $miny $maxz\"\n",
          "draw line \"$minx $maxy $minz\" \"$maxx $maxy $minz\"\n",
          "draw line \"$minx $maxy $minz\" \"$minx $maxy $maxz\"\n",
          "draw line \"$minx $miny $maxz\" \"$maxx $miny $maxz\"\n",
          "draw line \"$minx $miny $maxz\" \"$minx $maxy $maxz\"\n",
          "draw line \"$maxx $maxy $maxz\" \"$maxx $maxy $minz\"\n",
          "draw line \"$maxx $maxy $maxz\" \"$minx $maxy $maxz\"\n",
          "draw line \"$maxx $maxy $maxz\" \"$maxx $miny $maxz\"\n"] fs5 = .ok fs6 := h6
    rw [e6]
    simp only [h7]
    rfl
  · have hall := ((((hu.trans u1).trans u2).trans u3).trans u5).trans (u6.trans u7)
    refine ⟨?_, hall.2.1, hall.2.2⟩
    rw [hall.1, u6.1]
    simp only [Option.getD_some, concatTexts_lines, String.empty_append]
    refine congrArg some ?_
    have e5 : ∀ a b c d e : String, joinLines [a, b, c, d, e]
        = joinLines [a, b] ++ joinLines [c] ++ joinLines [d, e] := by
      intro a b c d e
      simp only [joinLines, String.append_assoc, String.append_empty]
    unfold vmdScriptLines
    rw [joinLines_append, joinLines_append, joinLines_append, e5]
    simp only [String.append_assoc]

theorem vmdScriptLines_oneLine (boxSize : List double) :
    ∀ l ∈ vmdScriptLines boxSize, oneLine l := by
  intro l hl
  unfold vmdScriptLines at hl
  simp only [List.mem_append] at hl
  rcases hl with ((hl | hl) | hl) | hl
  · revert l; decide
  · simp only [List.mem_cons, List.mem_singleton, List.not_mem_nil, or_false] at hl
    rcases hl with rfl | rfl | rfl | rfl | rfl
    · exact oneLine_append (by decide) (fmt_5_4f_oneLine _)
    · decide
    · exact oneLine_append (by decide) (fmt_5_4f_oneLine _)
    · decide
    · refine oneLine_append (by decide) ?_
      split
      · exact fmt_5_4f_oneLine _
      · decide
  · revert l; decide
  · split at hl
    · revert l; decide
    · simp at hl

theorem takeWhile_name (name rest : List Char) (hname : ' ' ∉ name) :
    (name ++ ' ' :: rest).takeWhile (fun c => c ≠ ' ') = name := by
  induction name with
  | nil => simp
  | cons c name ih =>
    have hc : c ≠ ' ' := fun h => hname (by simp [h])
    have := ih (fun h => hname (List.mem_cons_of_mem _ h))
    simp only [List.cons_append, List.takeWhile_cons, hc, ne_eq, not_false_eq_true,
      decide_True, if_true]
    simp only [ne_eq] at this
    rw [this]

theorem dropWhile_name (name rest : List Char) (hname : ' ' ∉ name) :
    (name ++ ' ' :: rest).dropWhile (fun c => c ≠ ' ') = ' ' :: rest := by
  induction name with
  | nil => simp
  | cons c name ih =>
    have hc : c ≠ ' ' := fun h => hname (by simp [h])
    have := ih (fun h => hname (List.mem_cons_of_mem _ h))
    simp only [List.cons_append, List.dropWhile_cons, hc, ne_eq, not_false_eq_true,
      decide_True, if_true]
    simp only [ne_eq] at this
    rw [this]

theorem parseSet_set (name : List Char) (v : String) (hname : ' ' ∉ name) :
    parseSet (String.mk ('s' :: 'e' :: 't' :: ' ' :: name) ++ " " ++ v) = some (String.mk name, v) := by
  have hdata : (String.mk ('s' :: 'e' :: 't' :: ' ' :: name) ++ " " ++ v).data
      = 's' :: 'e' :: 't' :: ' ' :: (name ++ ' ' :: v.data) := by
    simp [String.data_append]
  unfold parseSet
  rw [hdata]
  show some (String.mk ((name ++ ' ' :: v.data).takeWhile fun c => c ≠ ' '),
    String.mk (((name ++ ' ' :: v.data).dropWhile fun c => c ≠ ' ').drop 1)) = _
  rw [takeWhile_name name _ hname, dropWhile_name name _ hname]
  rfl

theorem parseDrawLine_s (line : String) (rest : List Char) (h : line.data = 's' :: rest) :
    parseDrawLine line = none := by
  unfold parseDrawLine
  rw [h]
  rfl

theorem isRotate_s (line : String) (rest : List Char) (h : line.data = 's' :: rest) :
    isRotate line = false := by
  unfold isRotate
  rw [h]
  rfl

/-- The `set` commands among the lines written by `vmdScript`. -/
theorem filterMap_parseSet_lines (boxSize : List double) :
    (vmdScriptLines boxSize).filterMap parseSet
      = [("sel", "[atomselect top \"name X\"]"), ("minx", "0"),
          ("maxx", fmt_5_4f (boxSize.getD 0 0)), ("miny", "0"),
          ("maxy", fmt_5_4f (boxSize.getD 1 0)), ("minz", "0"),
          ("maxz", if boxSize.length = 3 then fmt_5_4f (boxSize.getD 2 0) else "0")] := by
  have hx : ∀ v, parseSet ("set maxx " ++ v) = some ("maxx", v) :=
    fun v => parseSet_set ['m', 'a', 'x', 'x'] v (by decide)
  have hy : ∀ v, parseSet ("set maxy " ++ v) = some ("maxy", v) :=
    fun v => parseSet_set ['m', 'a', 'x', 'y'] v (by decide)
  have hz : ∀ v, parseSet ("set maxz " ++ v) = some ("maxz", v) :=
    fun v => parseSet_set ['m', 'a', 'x', 'z'] v (by decide)
  have h1 : parseSet "set miny 0" = some ("miny", "0") := by decide
  have h2 : parseSet "set minz 0" = some ("minz", "0") := by decide
  unfold vmdScriptLines
  simp only [List.filterMap_append]
  rw [show List.filterMap parseSet
      [ "light 0 on", "light 1 on", "light 2 off", "light 3 off", "axes location off",
        "stage location off", "display projection orthographic", "mol modstyle 0 0 VDW 1 30",
        "set sel [atomselect top \"name X\"]", "atomselect0 set radius 0.4", "color Name X blue",
        "display depthcue off", "set minx 0" ]
      = [("sel", "[atomselect top \"name X\"]"), ("minx", "0")] by decide!]
  rw [show List.filterMap parseSet
      [ "draw materials off", "draw color white",
        "draw line \"$minx $miny $minz\" \"$maxx $miny $minz\"",
        "draw line \"$minx $miny $minz\" \"$minx $maxy $minz\"",
        "draw line \"$minx $miny $minz\" \"$minx $miny $maxz\"",
        "draw line \"$maxx $miny $minz\" \"$maxx $maxy $minz\"",
        "draw line \"$maxx $miny $minz\" \"$maxx $miny $maxz\"",
        "draw line \"$minx $maxy $minz\" \"$maxx $maxy $minz\"",
        "draw line \"$minx $maxy $minz\" \"$minx $maxy $maxz\"",
        "draw line \"$minx $miny $maxz\" \"$maxx $miny $maxz\"",
        "draw line \"$minx $miny $maxz\" \"$minx $maxy $maxz\"",
        "draw line \"$maxx $maxy $maxz\" \"$maxx $maxy $minz\"",
        "draw line \"$maxx $maxy $maxz\" \"$minx $maxy $maxz\"",
        "draw line \"$maxx $maxy $maxz\" \"$maxx $miny $maxz\"" ] = [] by decide!]
  have hr : List.filterMap parseSet
      (if boxSize.length = 3 then ["rotate x by -60", "rotate y by -30", "rotate z by -15"]
        else []) = [] := by
    split <;> decide
  rw [hr]
  simp only [List.filterMap_cons, List.filterMap_nil, hx, hy, hz, h1, h2, List.append_nil,
    List.cons_append, List.nil_append]

/-- The `draw line` commands among the lines written by `vmdScript`. -/
theorem filterMap_parseDrawLine_lines (boxSize : List double) :
    (vmdScriptLines boxSize).filterMap parseDrawLine
      = [ (("minx", "miny", "minz"), ("maxx", "miny", "minz")),
          (("minx", "miny", "minz"), ("minx", "maxy", "minz")),
          (("minx", "miny", "minz"), ("minx", "miny", "maxz")),
          (("maxx", "miny", "minz"), ("maxx", "maxy", "minz")),
          (("maxx", "miny", "minz"), ("maxx", "miny", "maxz")),
          (("minx", "maxy", "minz"), ("maxx", "maxy", "minz")),
          (("minx", "maxy", "minz"), ("minx", "maxy", "maxz")),
          (("minx", "miny", "maxz"), ("maxx", "miny", "maxz")),
          (("minx", "miny", "maxz"), ("minx", "maxy", "maxz")),
          (("maxx", "maxy", "maxz"), ("maxx", "maxy", "minz")),
          (("maxx", "maxy", "maxz"), ("minx", "maxy", "maxz")),
          (("maxx", "maxy", "maxz"), ("maxx", "miny", "maxz")) ] := by
  have hx : ∀ v, parseDrawLine ("set maxx " ++ v) = none := fun v => parseDrawLine_s _ _ rfl
  have hy : ∀ v, parseDrawLine ("set maxy " ++ v) = none := fun v => parseDrawLine_s _ _ rfl
  have hz : ∀ v, parseDrawLine ("set maxz " ++ v) = none := fun v => parseDrawLine_s _ _ rfl
  have h1 : parseDrawLine "set miny 0" = none := by decide
  have h2 : parseDrawLine "set minz 0" = none := by decide
  unfold vmdScriptLines
  simp only [List.filterMap_append]
  rw [show List.filterMap parseDrawLine
      [ "light 0 on", "light 1 on", "light 2 off", "light 3 off", "axes location off",
        "stage location off", "display projection orthographic", "mol modstyle 0 0 VDW 1 30",
        "set sel [atomselect top \"name X\"]", "atomselect0 set radius 0.4", "color Name X blue",
        "display depthcue off", "set minx 0" ] = [] by decide!]
  rw [show List.filterMap parseDrawLine
      [ "draw materials off", "draw color white",
        "draw line \"$minx $miny $minz\" \"$maxx $miny $minz\"",
        "draw line \"$minx $miny $minz\" \"$minx $maxy $minz\"",
        "draw line \"$minx $miny $minz\" \"$minx $miny $maxz\"",
        "draw line \"$maxx $miny $minz\" \"$maxx $maxy $minz\"",
        "draw line \"$maxx $miny $minz\" \"$maxx $miny $maxz\"",
        "draw line \"$minx $maxy $minz\" \"$maxx $maxy $minz\"",
        "draw line \"$minx $maxy $minz\" \"$minx $maxy $maxz\"",
        "draw line \"$minx $miny $maxz\" \"$maxx $miny $maxz\"",
        "draw line \"$minx $miny $maxz\" \"$minx $maxy $maxz\"",
        "draw line \"$maxx $maxy $maxz\" \"$maxx $maxy $minz\"",
        "draw line \"$maxx $maxy $maxz\" \"$minx $maxy $maxz\"",
        "draw line \"$maxx $maxy $maxz\" \"$maxx $miny $maxz\"" ]
      = [ (("minx", "miny", "minz"), ("maxx", "miny", "minz")),
          (("minx", "miny", "minz"), ("minx", "maxy", "minz")),
          (("minx", "miny", "minz"), ("minx", "miny", "maxz")),
          (("maxx", "miny", "minz"), ("maxx", "maxy", "minz")),
          (("maxx", "miny", "minz"), ("maxx", "miny", "maxz")),
          (("minx", "maxy", "minz"), ("maxx", "maxy", "minz")),
          (("minx", "maxy", "minz"), ("minx", "maxy", "maxz")),
          (("minx", "miny", "maxz"), ("maxx", "miny", "maxz")),
          (("minx", "miny", "maxz"), ("minx", "maxy", "maxz")),
          (("maxx", "maxy", "maxz"), ("maxx", "maxy", "minz")),
          (("maxx", "maxy", "maxz"), ("minx", "maxy", "maxz")),
          (("maxx", "maxy", "maxz"), ("maxx", "miny", "maxz")) ] by decide!]
  have hr : List.filterMap parseDrawLine
      (if boxSize.length = 3 then ["rotate x by -60", "rotate y by -30", "rotate z by -15"]
        else []) = [] := by
    split <;> decide
  rw [hr]
  simp only [List.filterMap_cons, List.filterMap_nil, hx, hy, hz, h1, h2, List.append_nil,
    List.cons_append, List.nil_append]

/-- The `rotate` commands among the lines written by `vmdScript`. -/
theorem filter_isRotate_lines (boxSize : List double) :
    (vmdScriptLines boxSize).filter isRotate
      = if boxSize.length = 3 then ["rotate x by -60", "rotate y by -30", "rotate z by -15"]
        else [] := by
  have hx : ∀ v, isRotate ("set maxx " ++ v) = false := fun v => isRotate_s _ _ rfl
  have hy : ∀ v, isRotate ("set maxy " ++ v) = false := fun v => isRotate_s _ _ rfl
  have hz : ∀ v, isRotate ("set maxz " ++ v) = false := fun v => isRotate_s _ _ rfl
  have h1 : isRotate "set miny 0" = false := by decide
  have h2 : isRotate "set minz 0" = false := by decide
  unfold vmdScriptLines
  simp only [List.filter_append]
  rw [show List.filter isRotate
      [ "light 0 on", "light 1 on", "light 2 off", "light 3 off", "axes location off",
        "stage location off", "display projection orthographic", "mol modstyle 0 0 VDW 1 30",
        "set sel [atomselect top \"name X\"]", "atomselect0 set radius 0.4", "color Name X blue",
        "display depthcue off", "set minx 0" ] = [] by decide!]
  rw [show List.filter isRotate
      [ "draw materials off", "draw color white",
        "draw line \"$minx $miny $minz\" \"$maxx $miny $minz\"",
        "draw line \"$minx $miny $minz\" \"$minx $maxy $minz\"",
        "draw line \"$minx $miny $minz\" \"$minx $miny $maxz\"",
        "draw line \"$maxx $miny $minz\" \"$maxx $maxy $minz\"",
        "draw line \"$maxx $miny $minz\" \"$maxx $miny $maxz\"",
        "draw line \"$minx $maxy $minz\" \"$maxx $maxy $minz\"",
        "draw line \"$minx $maxy $minz\" \"$minx $maxy $maxz\"",
        "draw line \"$minx $miny $maxz\" \"$maxx $miny $maxz\"",
        "draw line \"$minx $miny $maxz\" \"$minx $maxy $maxz\"",
        "draw line \"$maxx $maxy $maxz\" \"$maxx $maxy $minz\"",
        "draw line \"$maxx $maxy $maxz\" \"$minx $maxy $maxz\"",
        "draw line \"$maxx $maxy $maxz\" \"$maxx $miny $maxz\"" ] = [] by decide!]
  have hr : List.filter isRotate
      (if boxSize.length = 3 then ["rotate x by -60", "rotate y by -30", "rotate z by -15"]
        else [])
      = if boxSize.length = 3 then ["rotate x by -60", "rotate y by -30", "rotate z by -15"]
        else [] := by
    split <;> decide
  rw [hr]
  simp only [List.filter_cons, List.filter_nil, hx, hy, hz, h1, h2, List.append_nil,
    List.cons_append, List.nil_append, Bool.false_eq_true, if_false]

/-- C10. For every box size of length 2 or 3 (the file being openable),
`vmdScript` returns and the script it leaves in `vmd.tcl` sets `minx`, `miny`,
`minz` to 0, `maxx` to `boxSize[0]`, `maxy` to `boxSize[1]`, and `maxz` to
`boxSize[2]` for length 3 and to 0 for length 2 (the sizes printed by `%5.4f`);
its `draw line` commands are twelve segments between corners of the box
`[minx,maxx] x [miny,maxy] x [minz,maxz]`, each joining two corners that differ
in one coordinate, each of the twelve edges of the box drawn exactly once, four
along each axis; and the three `rotate` commands are there exactly when the
length is 3. -/
theorem vmdScript_draws_box (boxSize : List double) (fs : FileSystem)
    (hlen : boxSize.length = 2 ∨ boxSize.length = 3) (hopen : fs.openable "vmd.tcl" = true) :
    ∃ fs1 script, vmdScript boxSize fs = .ok fs1 ∧ fs1.content "vmd.tcl" = some script ∧
      setCommands script
        = [("sel", "[atomselect top \"name X\"]"), ("minx", "0"),
            ("maxx", fmt_5_4f (boxSize.getD 0 0)), ("miny", "0"),
            ("maxy", fmt_5_4f (boxSize.getD 1 0)), ("minz", "0"),
            ("maxz", if boxSize.length = 3 then fmt_5_4f (boxSize.getD 2 0) else "0")] ∧
      (drawLineCommands script).length = 12 ∧
      (∀ d ∈ drawLineCommands script,
        d.1 ∈ boxCorners ∧ d.2 ∈ boxCorners ∧ coordinatesDiffering d.1 d.2 = 1) ∧
      boxEdges.length = 12 ∧
      (∀ e ∈ boxEdges, ((drawLineCommands script).filter (sameSegment e)).length = 1) ∧
      (∀ axis, axis < 3 →
        ((drawLineCommands script).filter fun d => axisOf d = axis).length = 4) ∧
      (rotateCommands script ≠ [] ↔ boxSize.length = 3) ∧
      rotateCommands script
        = (if boxSize.length = 3 then ["rotate x by -60", "rotate y by -30", "rotate z by -15"]
           else []) := by
  obtain ⟨fs1, h1, u⟩ := vmdScript_ok boxSize fs hlen hopen
  have hl : textLines (joinLines (vmdScriptLines boxSize)) = vmdScriptLines boxSize :=
    textLines_joinLines _ (vmdScriptLines_oneLine _)
  have hd : drawLineCommands (joinLines (vmdScriptLines boxSize))
      = (vmdScriptLines boxSize).filterMap parseDrawLine := by
    unfold drawLineCommands
    rw [hl]
  rw [filterMap_parseDrawLine_lines] at hd
  have hr : rotateCommands (joinLines (vmdScriptLines boxSize))
      = (vmdScriptLines boxSize).filter isRotate := by
    unfold rotateCommands
    rw [hl]
  rw [filter_isRotate_lines] at hr
  refine ⟨fs1, _, h1, u.1, ?_, ?_, ?_, ?_, ?_, ?_, ?_, hr⟩
  · unfold setCommands
    rw [hl]
    exact filterMap_parseSet_lines boxSize
  · rw [hd]; rfl
  · rw [hd]; decide
  · decide
  · rw [hd]; decide
  · rw [hd]
    intro axis haxis
    interval_cases axis <;> decide
  · rw [hr]
    by_cases h3 : boxSize.length = 3
    · simp [h3]
    · simp [h3]

/-- Example for C10: a box of length 2; `maxz` is set to 0 and nothing is
rotated. -/
theorem vmdScript_draws_box_witness :
    (([10, 20] : List double).length = 2 ∨ ([10, 20] : List double).length = 3) ∧
    (⟨fun _ => none, fun _ => true⟩ : FileSystem).openable "vmd.tcl" = true ∧
    ∃ fs1 script, vmdScript [10, 20] ⟨fun _ => none, fun _ => true⟩ = .ok fs1 ∧
      fs1.content "vmd.tcl" = some script ∧
      setCommands script
        = [("sel", "[atomselect top \"name X\"]"), ("minx", "0"), ("maxx", "10.0000"),
            ("miny", "0"), ("maxy", "20.0000"), ("minz", "0"), ("maxz", "0")] ∧
      (drawLineCommands script).length = 12 ∧ rotateCommands script = [] :=
  ⟨by decide, rfl,
    (vmdScript_draws_box [10, 20] ⟨fun _ => none, fun _ => true⟩ (by decide) rfl).imp
      fun _ h => h.imp fun _ h =>
        ⟨h.1, h.2.1, h.2.2.1.trans (by decide!), h.2.2.2.1,
          h.2.2.2.2.2.2.2.2.2.trans (by decide)⟩⟩
